import Mathlib

/-!
Verification development for the controlled-gate core of the Cirq excerpt
(control-value algebra, controlled-gate wrapper, decomposition engine) and
for the IonQ single-qubit rotation synthesis helper.

The controlled-gate implementation files (`cirq/ops/controlled_gate.py`,
`cirq/ops/control_values.py`) are not part of the excerpt: only their test
surface (`cirq/ops/controlled_gate_test.py`) is.  The corresponding
definitions below are therefore modelled from the specification document,
with the behavior pinned down by the in-repository tests taking precedence
where the two disagree (each such place is noted in the doc comment).
The IonQ helper (`cirq_ionq/ionq_native_target_gateset.py`) is present in
the excerpt and is embedded directly from its source.
-/

namespace CirqModel

/-- Modelled from the spec: the two canonical control-value representations
of the missing `cirq/ops/control_values.py` (section 3 of the spec).
`productOfSums` holds one list of accepted values per control qudit;
`sumOfProducts` holds a list of full-length accepted assignments. -/
inductive ControlValues where
  | productOfSums : List (List ℕ) → ControlValues
  | sumOfProducts : List (List ℕ) → ControlValues
deriving DecidableEq

/-- Modelled from the spec: number of control qudits described by a
control-value object. -/
def ControlValues.numControls : ControlValues → ℕ
  | .productOfSums pos => pos.length
  | .sumOfProducts sop => (sop.headD []).length

/-- Modelled from the spec: acceptance of one concrete control assignment
(section 4.1 `matches`): conjunction of per-qudit membership for
`productOfSums`, disjunction of exact matches for `sumOfProducts`. -/
def ControlValues.accepts : ControlValues → List ℕ → Bool
  | .productOfSums pos, a =>
      decide (a.length = pos.length) && (a.zip pos).all fun p => decide (p.1 ∈ p.2)
  | .sumOfProducts sop, a => sop.any fun t => decide (t = a)

/-- All assignments choosing one value from each list, in order (the
Cartesian-product expansion used by the spec to compare representations). -/
def cartesian : List (List ℕ) → List (List ℕ)
  | [] => [[]]
  | s :: rest => (s.map fun v => (cartesian rest).map fun t => v :: t).flatten

/-- Modelled from the spec: the accepted-assignment list of a control-value
object (`sumOfProducts` lists it directly, `productOfSums` expands to the
Cartesian product of its per-qudit sets). -/
def ControlValues.accepted : ControlValues → List (List ℕ)
  | .productOfSums pos => cartesian pos
  | .sumOfProducts sop => sop

/-- Modelled from the spec: validation of a control-value object against a
claimed control-qudit shape (section 4.1 `validate`): the qudit count must
agree and every accepted value must lie below its qudit's dimension. -/
def ControlValues.validate (cv : ControlValues) (shape : List ℕ) : Bool :=
  decide (cv.numControls = shape.length) &&
  match cv with
  | .productOfSums pos => (pos.zip shape).all fun p => p.1.all fun v => decide (v < p.2)
  | .sumOfProducts sop => sop.all fun t =>
      decide (t.length = shape.length) && (t.zip shape).all fun p => decide (p.1 < p.2)

/-- Modelled from the spec: canonical equality of control-value objects
(section 4.1): equal qudit count and identical accepted-assignment sets,
independent of representation and internal ordering. -/
def ControlValues.equiv (u v : ControlValues) : Bool :=
  decide (u.numControls = v.numControls) &&
  u.accepted.all (fun a => decide (a ∈ v.accepted)) &&
  v.accepted.all (fun a => decide (a ∈ u.accepted))

/-- All concatenations of a member of the first list with a member of the
second list, in order. -/
def crossJoin (l1 l2 : List (List ℕ)) : List (List ℕ) :=
  (l1.map fun x => l2.map fun y => x ++ y).flatten

/-- Modelled from the spec: concatenation of two control-value objects, used
when flattening nested controls (section 4.2 step 4).  Two product forms
concatenate positionally; any mixed form falls back to the product of the
accepted-assignment lists. -/
def ControlValues.concat : ControlValues → ControlValues → ControlValues
  | .productOfSums a, .productOfSums b => .productOfSums (a ++ b)
  | u, v => .sumOfProducts (crossJoin u.accepted v.accepted)

/-- Modelled from the spec and the tests: the capability record of a
sub-gate of the missing `cirq/ops/controlled_gate.py` (the source is
duck-typed over optional protocols; here each capability is an explicit
field, per spec section 9).  `tag` distinguishes distinct gates. -/
structure SubGate where
  shape : List ℕ
  isMeasurement : Bool
  isChannel : Bool
  tag : ℕ
deriving DecidableEq

/-- Modelled from the spec: the flattened controlled-gate wrapper of the
missing `cirq/ops/controlled_gate.py` (section 3): an innermost sub-gate,
a control-value object and the control-qudit shape. -/
structure CGate where
  sub_gate : SubGate
  control_values : ControlValues
  control_qid_shape : List ℕ
deriving DecidableEq

/-- Modelled from the spec: the constructor argument, which is either a raw
sub-gate or an already controlled gate (the latter triggers flattening). -/
inductive GateSpec where
  | raw : SubGate → GateSpec
  | controlled : CGate → GateSpec

/-- Modelled from the spec and the tests: the default control-value object
used when none is supplied.  The spec (section 4.1) claims the default
accepted value is dim-1, but the in-repository test `test_init2` asserts
`control_values == ProductOfSums(((1,), (1,)))` for
`control_qid_shape=(3, 3)`, so the default accepted value is 1 for every
control qudit regardless of its dimension. -/
def defaultValues (n : ℕ) : ControlValues :=
  .productOfSums (List.replicate n [1])

/-- Modelled from the spec: resolution of the control count from whichever
subset of the optional constructor arguments was given (section 4.2 step 1);
one control when nothing was given. -/
def resolveNum (num? : Option ℕ) (cv? : Option ControlValues)
    (shape? : Option (List ℕ)) : ℕ :=
  match num?, cv?, shape? with
  | some n, _, _ => n
  | none, some cv, _ => cv.numControls
  | none, none, some s => s.length
  | none, none, none => 1

/-- Modelled from the spec and the tests: construction of a controlled gate
from the missing `cirq/ops/controlled_gate.py` (section 4.2 steps 1-4):
resolve count and shape, reject inconsistent counts, validate control
values against the shape, reject measurement and channel sub-gates, and
flatten a nested controlled sub-gate by prepending the new controls. -/
def make (g : GateSpec) (num? : Option ℕ) (cv? : Option ControlValues)
    (shape? : Option (List ℕ)) : Except String CGate :=
  let num := resolveNum num? cv? shape?
  if (cv?.map ControlValues.numControls).getD num ≠ num then
    .error "cirq.num_qubits(control_values) != num_controls"
  else if (shape?.map List.length).getD num ≠ num then
    .error "len(control_qid_shape) != num_controls"
  else
    let shape := shape?.getD (List.replicate num 2)
    let cv := cv?.getD (defaultValues num)
    if cv.validate shape = false then
      .error "Control values outside of range"
    else
      match g with
      | .raw s =>
          if s.isMeasurement then .error "Cannot control measurement"
          else if s.isChannel then .error "Cannot control channel"
          else .ok ⟨s, cv, shape⟩
      | .controlled inner =>
          if inner.sub_gate.isMeasurement then .error "Cannot control measurement"
          else if inner.sub_gate.isChannel then .error "Cannot control channel"
          else .ok ⟨inner.sub_gate, cv.concat inner.control_values,
                    shape ++ inner.control_qid_shape⟩

/-- Modelled from the spec: structural equality of controlled gates
(section 3): equal sub-gate, equal control shape, and canonically equal
control-value objects. -/
def gateEq (a b : CGate) : Bool :=
  decide (a.sub_gate = b.sub_gate) &&
  decide (a.control_qid_shape = b.control_qid_shape) &&
  a.control_values.equiv b.control_values

/-- Modelled from the spec and the tests: the power operation of the missing
`cirq/ops/controlled_gate.py`.  The spec (section 4.2) claims power demands
an all-default control condition, but the in-repository test
`test_pow_inverse` asserts that `pow(C0Y, 1.5)` and `pow(C2Y, 1.5)` succeed
and keep their non-default controls, so power merely delegates to the
sub-gate (whose powered result, or absence of one, is passed in) and keeps
the control specification unchanged. -/
def cpow (g : CGate) (subPowed : Option SubGate) : Option CGate :=
  subPowed.map fun s => ⟨s, g.control_values, g.control_qid_shape⟩

/-- Modelled from the spec and the tests: inverse is power at exponent -1,
so it delegates to the sub-gate's inverse (passed in) the same way. -/
def cinverse (g : CGate) (subInv : Option SubGate) : Option CGate :=
  cpow g subInv

/-- Modelled from the spec: parameter resolution of the missing
`cirq/ops/controlled_gate.py` (section 4.2): the resolved sub-gate (passed
in) replaces the old one, after re-validating the no-channel rule. -/
def resolveParams (g : CGate) (resolvedSub : SubGate) : Except String CGate :=
  if resolvedSub.isChannel then .error "Cannot control channel"
  else .ok ⟨resolvedSub, g.control_values, g.control_qid_shape⟩

/-- Modelled from the spec: the block-diagonal lift of a sub-gate unitary
(section 4.2): indexed by pairs of a control assignment and a sub-gate
basis index, it applies the sub-gate unitary on accepted control
assignments, the identity on unaccepted ones, and vanishes between
different control assignments. -/
def controlledUnitary {α β : Type} [Zero α] [One α] [DecidableEq β]
    (cv : ControlValues) (U : β → β → α) :
    (List ℕ × β) → (List ℕ × β) → α :=
  fun ct ct' =>
    if ct.1 = ct'.1 then
      if cv.accepts ct.1 then U ct.2 ct'.2
      else if ct.2 = ct'.2 then 1 else 0
    else 0

/-- Modelled from the spec: the unitary query of the missing
`cirq/ops/controlled_gate.py` (section 4.2): defined exactly when the
sub-gate has a unitary (passed in as an optional matrix) and the control
values carry no symbolic content; the result is the block-diagonal lift. -/
def gateUnitary {α β : Type} [Zero α] [One α] [DecidableEq β]
    (g : CGate) (cvSymbolic : Bool) (subU : Option (β → β → α)) :
    Option ((List ℕ × β) → (List ℕ × β) → α) :=
  if cvSymbolic then none
  else subU.map fun U => controlledUnitary g.control_values U

theorem mem_cartesian (pos : List (List ℕ)) (a : List ℕ) :
    a ∈ cartesian pos ↔
      a.length = pos.length ∧ ∀ p ∈ a.zip pos, p.1 ∈ p.2 := by
  induction pos generalizing a with
  | nil =>
    simp only [cartesian, List.mem_singleton, List.length_nil]
    constructor
    · rintro rfl; simp
    · rintro ⟨h, -⟩; exact List.eq_nil_of_length_eq_zero h
  | cons s rest ih =>
    simp only [cartesian, List.mem_flatten, List.mem_map]
    constructor
    · rintro ⟨l, ⟨v, hv, rfl⟩, hl⟩
      rcases List.mem_map.mp hl with ⟨t, ht, rfl⟩
      rcases (ih t).mp ht with ⟨hlen, hmem⟩
      refine ⟨by simp [hlen], ?_⟩
      intro p hp
      rcases List.mem_cons.mp (by simpa [List.zip_cons_cons] using hp) with h | h
      · subst h; exact hv
      · exact hmem p h
    · rintro ⟨hlen, hmem⟩
      cases a with
      | nil => simp at hlen
      | cons x t =>
        refine ⟨(cartesian rest).map (fun u => x :: u), ⟨x, ?_, rfl⟩, ?_⟩
        · exact hmem (x, s) (by rw [List.zip_cons_cons]; exact List.mem_cons_self _ _)
        · refine List.mem_map.mpr ⟨t, (ih t).mpr ⟨by simpa using hlen, ?_⟩, rfl⟩
          intro p hp
          exact hmem p (by rw [List.zip_cons_cons]; exact List.mem_cons_of_mem _ hp)

theorem accepts_iff_mem_accepted (cv : ControlValues) (a : List ℕ) :
    cv.accepts a = true ↔ a ∈ cv.accepted := by
  cases cv with
  | productOfSums pos =>
    simp [ControlValues.accepts, ControlValues.accepted, mem_cartesian]
  | sumOfProducts sop =>
    simp only [ControlValues.accepts, ControlValues.accepted, List.any_eq_true,
      decide_eq_true_eq]
    constructor
    · rintro ⟨t, ht, rfl⟩; exact ht
    · intro h; exact ⟨a, h, rfl⟩

theorem equiv_refl (cv : ControlValues) : cv.equiv cv = true := by
  simp [ControlValues.equiv, List.all_eq_true]

theorem defaultValues_accepts (n : ℕ) (a : List ℕ) :
    (defaultValues n).accepts a = true ↔ a = List.replicate n 1 := by
  rw [accepts_iff_mem_accepted]
  induction n generalizing a with
  | zero => simp [defaultValues, ControlValues.accepted, cartesian]
  | succ m ih =>
    simp only [defaultValues, ControlValues.accepted, List.replicate_succ, cartesian,
      List.map_cons, List.map_nil, List.flatten_cons, List.flatten_nil,
      List.append_nil, List.mem_map] at ih ⊢
    constructor
    · rintro ⟨t, ht, rfl⟩
      rw [(ih t).mp ht]
    · rintro rfl
      exact ⟨List.replicate m 1, (ih _).mpr rfl, rfl⟩

theorem defaultValues_validate (n : ℕ) (shape : List ℕ)
    (hlen : shape.length = n) (hd : ∀ d ∈ shape, 1 < d) :
    (defaultValues n).validate shape = true := by
  simp only [defaultValues, ControlValues.validate, ControlValues.numControls,
    Bool.and_eq_true, decide_eq_true_eq, List.all_eq_true, List.length_replicate]
  refine ⟨hlen.symm, ?_⟩
  intro p hp
  rcases List.of_mem_zip hp with ⟨h1, h2⟩
  rw [List.eq_of_mem_replicate h1]
  intro v hv
  rcases List.mem_singleton.mp hv with rfl
  exact hd _ h2

/-- A generic one-qubit sub-gate used in concrete instances. -/
def zSub : SubGate := ⟨[2], false, false, 0⟩

/-- A second one-qubit sub-gate (playing the role of Y). -/
def ySub : SubGate := ⟨[2], false, false, 2⟩

/-- A sub-gate playing the role of Y raised to the power 1.5. -/
def ySub15 : SubGate := ⟨[2], false, false, 3⟩

/-- A measurement sub-gate. -/
def measSub : SubGate := ⟨[2], true, false, 4⟩

/-- A channel sub-gate (a noise channel with no coherent control). -/
def chanSub : SubGate := ⟨[2], false, true, 5⟩

/-- The bit-flip unitary on a basis indexed by natural numbers 0 and 1. -/
def uX : ℕ → ℕ → ℚ := fun i j => if i + j = 1 then 1 else 0

/-- Whether an Except value is an error. -/
def isErr {ε δ : Type} : Except ε δ → Bool
  | .error _ => true
  | .ok _ => false

/-- C1: for every wrapper, the unitary query is defined exactly when the
sub-gate has a unitary and the control values carry no symbolic content,
and the resulting matrix is the block-diagonal lift: the sub-gate unitary
on accepted control assignments, the identity on unaccepted ones, and zero
between distinct control assignments. -/
theorem controlled_unitary_block_diagonal_lift {α β : Type} [Zero α] [One α]
    [DecidableEq β] (g : CGate) (cvSymbolic : Bool) (subU : Option (β → β → α)) :
    ((gateUnitary g cvSymbolic subU).isSome ↔ subU.isSome ∧ cvSymbolic = false) ∧
    (∀ M U, gateUnitary g cvSymbolic subU = some M → subU = some U →
      ∀ c c' (t t' : β),
        (c = c' → g.control_values.accepts c = true → M (c, t) (c', t') = U t t') ∧
        (c = c' → g.control_values.accepts c = false →
          M (c, t) (c', t') = if t = t' then 1 else 0) ∧
        (c ≠ c' → M (c, t) (c', t') = 0)) := by
  constructor
  · cases cvSymbolic <;> cases subU <;> simp [gateUnitary]
  · intro M U hM hU c c' t t'
    subst hU
    cases cvSymbolic with
    | true => simp [gateUnitary] at hM
    | false =>
      simp only [gateUnitary, Bool.false_eq_true, if_false, Option.map_some',
        Option.some.injEq] at hM
      subst hM
      refine ⟨?_, ?_, ?_⟩
      · rintro rfl hacc; simp [controlledUnitary, hacc]
      · rintro rfl hacc; simp [controlledUnitary, hacc]
      · intro hne; simp [controlledUnitary, hne]

/-- Witness for C1 at a concrete instance: a single default control over
the bit-flip unitary, checked on an accepted entry, an unaccepted identity
entry and an off-block entry. -/
theorem controlled_unitary_block_diagonal_lift_w :
    (controlledUnitary (α := ℚ) (ControlValues.productOfSums [[1]]) uX ([1], 0) ([1], 1)
        = uX 0 1) ∧
    (controlledUnitary (α := ℚ) (ControlValues.productOfSums [[1]]) uX ([0], 0) ([0], 1)
        = if (0 : ℕ) = 1 then 1 else 0) ∧
    (controlledUnitary (α := ℚ) (ControlValues.productOfSums [[1]]) uX ([0], 0) ([1], 0)
        = 0) := by
  have h := (controlled_unitary_block_diagonal_lift (α := ℚ) (β := ℕ)
    ⟨zSub, .productOfSums [[1]], [2]⟩ false (some uX)).2
    (controlledUnitary (ControlValues.productOfSums [[1]]) uX) uX rfl rfl
  exact ⟨(h [1] [1] 0 1).1 rfl (by decide),
         (h [0] [0] 0 1).2.1 rfl (by decide),
         (h [0] [1] 0 0).2.2 (by decide)⟩

/-- C5 counterexample: with control shape (3, 3) and no control values, the
constructed gate accepts the all-ones assignment and rejects the
all-(dim-1) assignment (2, 2), contradicting the claim that the default
accepted value is dim-1. -/
theorem default_value_not_dim_minus_one_cex :
    make (.raw zSub) none none (some [3, 3]) =
      .ok ⟨zSub, .productOfSums [[1], [1]], [3, 3]⟩ ∧
    (ControlValues.productOfSums [[1], [1]]).accepts [2, 2] = false ∧
    (ControlValues.productOfSums [[1], [1]]).accepts [1, 1] = true :=
  ⟨rfl, rfl, rfl⟩

/-- C5 amended: for every control qudit whose accepted set is not
specified, the default accepted value is 1 regardless of the qudit's
dimension; in particular a gate built from a shape alone accepts exactly
the all-ones assignment. -/
theorem default_value_is_one (s : SubGate) (shape : List ℕ)
    (hm : s.isMeasurement = false) (hc : s.isChannel = false)
    (hd : ∀ d ∈ shape, 1 < d) :
    make (.raw s) none none (some shape) =
      .ok ⟨s, defaultValues shape.length, shape⟩ ∧
    ∀ a, (defaultValues shape.length).accepts a = true ↔
      a = List.replicate shape.length 1 := by
  refine ⟨?_, fun a => defaultValues_accepts _ a⟩
  simp [make, resolveNum, hm, hc, defaultValues_validate shape.length shape rfl hd]

/-- Witness for C5 amended at shape (3, 3). -/
theorem default_value_is_one_w :
    make (.raw zSub) none none (some [3, 3]) =
      .ok ⟨zSub, defaultValues 2, [3, 3]⟩ ∧
    ((defaultValues 2).accepts [1, 1] = true ↔ [1, 1] = List.replicate 2 1) := by
  have h := default_value_is_one zSub [3, 3] rfl rfl (by decide)
  exact ⟨h.1, h.2 [1, 1]⟩

/-- C6 counterexample: power succeeds on a gate whose single control
accepts the non-default value 0 (pinned by test_pow_inverse's assertion
that pow(C0Y, 1.5) is defined), contradicting the claim that power demands
an all-default control condition. -/
theorem pow_defined_nondefault_controls_cex :
    cpow ⟨ySub, .productOfSums [[0]], [2]⟩ (some ySub15) =
      some ⟨ySub15, .productOfSums [[0]], [2]⟩ ∧
    (ControlValues.productOfSums [[0]]).equiv (defaultValues 1) = false := by
  decide

/-- C6 amended: power is defined exactly when the sub-gate supports the
power, regardless of the control condition; the result keeps the controls
unchanged and wraps the powered sub-gate; inverse behaves as power at -1. -/
theorem pow_defined_iff_sub_pow (g : CGate) (subPowed : Option SubGate) :
    (cpow g subPowed = none ↔ subPowed = none) ∧
    (∀ s, cpow g (some s) = some ⟨s, g.control_values, g.control_qid_shape⟩) ∧
    (∀ s?, cinverse g s? = cpow g s?) := by
  refine ⟨?_, fun s => rfl, fun s? => rfl⟩
  cases subPowed <;> simp [cpow]

/-- Witness for C6 amended: the controlled Y with default control powered
by a supported sub-gate power. -/
theorem pow_defined_iff_sub_pow_w :
    cpow ⟨ySub, defaultValues 1, [2]⟩ (some ySub15) =
      some ⟨ySub15, defaultValues 1, [2]⟩ :=
  (pow_defined_iff_sub_pow ⟨ySub, defaultValues 1, [2]⟩ (some ySub15)).2.1 ySub15

/-- C9: construction of a controlled gate over a raw sub-gate fails exactly
when the supplied counts disagree, a control value is out of range for its
qudit dimension (the validation check), or the sub-gate is a measurement or
a channel; and parameter resolution re-validates the no-channel rule,
failing exactly when the resolved sub-gate is a channel. -/
theorem make_validation_errors (s : SubGate) (num? : Option ℕ)
    (cv? : Option ControlValues) (shape? : Option (List ℕ)) :
    (isErr (make (.raw s) num? cv? shape?) = true ↔
      ((cv?.map ControlValues.numControls).getD (resolveNum num? cv? shape?)
          ≠ resolveNum num? cv? shape? ∨
       (shape?.map List.length).getD (resolveNum num? cv? shape?)
          ≠ resolveNum num? cv? shape? ∨
       (cv?.getD (defaultValues (resolveNum num? cv? shape?))).validate
         (shape?.getD (List.replicate (resolveNum num? cv? shape?) 2)) = false ∨
       s.isMeasurement = true ∨ s.isChannel = true)) ∧
    (∀ g r, isErr (resolveParams g r) = true ↔ r.isChannel = true) := by
  constructor
  · simp only [make]
    split_ifs with h1 h2 h3 h4 h5 <;>
      simp_all [isErr]
  · intro g r
    simp only [resolveParams]
    split_ifs with h <;> simp_all [isErr]

/-- Witness for C9: a measurement sub-gate makes construction fail, and
resolving to a channel makes parameter resolution fail. -/
theorem make_validation_errors_w :
    isErr (make (.raw measSub) none none none) = true ∧
    isErr (resolveParams ⟨ySub, defaultValues 1, [2]⟩ chanSub) = true := by
  refine ⟨?_, ?_⟩
  · exact (make_validation_errors measSub none none none).1.mpr
      (Or.inr (Or.inr (Or.inr (Or.inl rfl))))
  · exact ((make_validation_errors measSub none none none).2
      ⟨ySub, defaultValues 1, [2]⟩ chanSub).mpr rfl

theorem validate_numControls {cv : ControlValues} {shape : List ℕ}
    (h : cv.validate shape = true) : cv.numControls = shape.length := by
  unfold ControlValues.validate at h
  simp only [Bool.and_eq_true, decide_eq_true_eq] at h
  exact h.1

theorem gateEq_refl (a : CGate) : gateEq a a = true := by
  simp [gateEq, equiv_refl]

/-- C4: over the same sub-gate and control shape, two controlled gates are
equal exactly when their control-value objects accept the same assignment
set, independent of representation and internal ordering. -/
theorem gate_eq_iff_same_accepted (g : SubGate) (shape : List ℕ)
    (A B : ControlValues) (hA : A.validate shape = true)
    (hB : B.validate shape = true) :
    (gateEq ⟨g, A, shape⟩ ⟨g, B, shape⟩ = true ↔
      ∀ a, a ∈ A.accepted ↔ a ∈ B.accepted) := by
  have hAn := validate_numControls hA
  have hBn := validate_numControls hB
  rw [show gateEq ⟨g, A, shape⟩ ⟨g, B, shape⟩ = A.equiv B from by simp [gateEq]]
  unfold ControlValues.equiv
  simp only [Bool.and_eq_true, decide_eq_true_eq, List.all_eq_true]
  constructor
  · rintro ⟨⟨-, hsub⟩, hsup⟩ a
    exact ⟨hsub a, hsup a⟩
  · intro h
    exact ⟨⟨hAn.trans hBn.symm, fun a ha => (h a).mp ha⟩,
      fun a ha => (h a).mpr ha⟩

/-- Witness for C4: a product-of-sums specification equals the
sum-of-products expansion of the same accepted set on shape (2, 3). -/
theorem gate_eq_iff_same_accepted_w :
    gateEq ⟨ySub, .productOfSums [[1], [0, 2]], [2, 3]⟩
           ⟨ySub, .sumOfProducts [[1, 0], [1, 2]], [2, 3]⟩ = true :=
  (gate_eq_iff_same_accepted ySub [2, 3] (.productOfSums [[1], [0, 2]])
    (.sumOfProducts [[1, 0], [1, 2]]) (by decide) (by decide)).mpr
    (fun a => Iff.rfl)

theorem mem_cartesian_cons (s : List ℕ) (rest : List (List ℕ)) (w : List ℕ) :
    w ∈ cartesian (s :: rest) ↔ ∃ v ∈ s, ∃ t ∈ cartesian rest, w = v :: t := by
  simp only [cartesian, List.mem_flatten, List.mem_map]
  constructor
  · rintro ⟨l, ⟨v, hv, rfl⟩, hl⟩
    rcases List.mem_map.mp hl with ⟨t, ht, rfl⟩
    exact ⟨v, hv, t, ht, rfl⟩
  · rintro ⟨v, hv, t, ht, rfl⟩
    exact ⟨(cartesian rest).map (v :: ·), ⟨v, hv, rfl⟩,
      List.mem_map.mpr ⟨t, ht, rfl⟩⟩

theorem mem_crossJoin (l1 l2 : List (List ℕ)) (w : List ℕ) :
    w ∈ crossJoin l1 l2 ↔ ∃ x ∈ l1, ∃ y ∈ l2, w = x ++ y := by
  simp only [crossJoin, List.mem_flatten, List.mem_map]
  constructor
  · rintro ⟨l, ⟨x, hx, rfl⟩, hl⟩
    rcases List.mem_map.mp hl with ⟨y, hy, rfl⟩
    exact ⟨x, hx, y, hy, rfl⟩
  · rintro ⟨x, hx, y, hy, rfl⟩
    exact ⟨l2.map (x ++ ·), ⟨x, hx, rfl⟩, List.mem_map.mpr ⟨y, hy, rfl⟩⟩

theorem mem_accepted_concat (u v : ControlValues) (w : List ℕ) :
    w ∈ (u.concat v).accepted ↔
      ∃ x ∈ u.accepted, ∃ y ∈ v.accepted, w = x ++ y := by
  cases u with
  | productOfSums p1 =>
    cases v with
    | productOfSums p2 =>
      show w ∈ cartesian (p1 ++ p2) ↔
        ∃ x ∈ cartesian p1, ∃ y ∈ cartesian p2, w = x ++ y
      induction p1 generalizing w with
      | nil =>
        simp [cartesian]
      | cons s p1 ih =>
        rw [List.cons_append, mem_cartesian_cons]
        constructor
        · rintro ⟨v', hv, t, ht, rfl⟩
          rcases (ih t).mp ht with ⟨x, hx, y, hy, rfl⟩
          exact ⟨v' :: x, (mem_cartesian_cons s p1 (v' :: x)).mpr ⟨v', hv, x, hx, rfl⟩,
            y, hy, rfl⟩
        · rintro ⟨x, hx, y, hy, rfl⟩
          rcases (mem_cartesian_cons s p1 x).mp hx with ⟨v', hv, t, ht, rfl⟩
          exact ⟨v', hv, t ++ y, (ih (t ++ y)).mpr ⟨t, ht, y, hy, rfl⟩, rfl⟩
    | sumOfProducts q =>
      exact mem_crossJoin _ _ w
  | sumOfProducts q =>
    cases v <;> exact mem_crossJoin _ _ w

theorem accepts_concat (u v : ControlValues) (a b : List ℕ)
    (hu : ∀ z ∈ u.accepted, z.length = a.length) :
    (u.concat v).accepts (a ++ b) = (u.accepts a && v.accepts b) := by
  have key : (u.concat v).accepts (a ++ b) = true ↔
      (u.accepts a = true ∧ v.accepts b = true) := by
    rw [accepts_iff_mem_accepted, mem_accepted_concat]
    constructor
    · rintro ⟨x, hx, y, hy, hxy⟩
      rcases List.append_inj hxy.symm (hu x hx) with ⟨e1, e2⟩
      rw [accepts_iff_mem_accepted u a, accepts_iff_mem_accepted v b, ← e1, ← e2]
      exact ⟨hx, hy⟩
    · rintro ⟨ha, hb⟩
      exact ⟨a, (accepts_iff_mem_accepted u a).mp ha,
             b, (accepts_iff_mem_accepted v b).mp hb, rfl⟩
  cases h1 : u.accepts a <;> cases h2 : v.accepts b <;> simp_all

theorem validate_uniform {cv : ControlValues} {shape : List ℕ}
    (h : cv.validate shape = true) :
    ∀ z ∈ cv.accepted, z.length = cv.numControls := by
  cases cv with
  | productOfSums pos =>
    intro z hz
    exact ((mem_cartesian pos z).mp hz).1
  | sumOfProducts sop =>
    intro z hz
    unfold ControlValues.validate at h
    simp only [Bool.and_eq_true, decide_eq_true_eq, List.all_eq_true] at h
    rcases h with ⟨hnum, hall⟩
    rw [(hall z hz).1, hnum]

theorem make_raw_ok {g : SubGate} {cv : ControlValues} {s : List ℕ} {g' : CGate}
    (h : make (.raw g) none (some cv) (some s) = .ok g') :
    g' = ⟨g, cv, s⟩ ∧ cv.validate s = true := by
  simp only [make, resolveNum, Option.map_some', Option.getD_some] at h
  split_ifs at h with h1 h2 h3 h4 h5; cases h
  exact ⟨rfl, by revert h3; cases cv.validate s <;> simp⟩

theorem make_controlled_ok {inner : CGate} {cv : ControlValues} {s : List ℕ}
    {g' : CGate} (h : make (.controlled inner) none (some cv) (some s) = .ok g') :
    g' = ⟨inner.sub_gate, cv.concat inner.control_values,
          s ++ inner.control_qid_shape⟩ ∧ cv.validate s = true := by
  simp only [make, resolveNum, Option.map_some', Option.getD_some] at h
  split_ifs at h with h1 h2 h3 h4 h5; cases h
  exact ⟨rfl, by revert h3; cases cv.validate s <;> simp⟩

/-- C3: constructing a controlled gate over a controlled gate flattens at
construction: the stored sub-gate is the innermost gate, the new controls
are prepended (shape and control values concatenated, newest first), the
result is in the equality class of the directly built flat gate, and its
block-diagonal lift agrees entrywise with the nested lift. -/
theorem nested_controls_flatten (g : SubGate) (cv1 cv2 : ControlValues)
    (s1 s2 : List ℕ) (g1 g2 : CGate)
    (h1 : make (.raw g) none (some cv1) (some s1) = .ok g1)
    (h2 : make (.controlled g1) none (some cv2) (some s2) = .ok g2) :
    g2.sub_gate = g ∧
    g2.control_qid_shape = s2 ++ s1 ∧
    g2.control_values = cv2.concat cv1 ∧
    gateEq g2 ⟨g, cv2.concat cv1, s2 ++ s1⟩ = true ∧
    ∀ {α β : Type} [Zero α] [One α] [DecidableEq β]
      (U : β → β → α) (a a' b b' : List ℕ) (t t' : β),
      a.length = s2.length → a'.length = s2.length →
      controlledUnitary (cv2.concat cv1) U (a ++ b, t) (a' ++ b', t') =
        controlledUnitary cv2 (controlledUnitary cv1 U) (a, (b, t)) (a', (b', t')) := by
  obtain ⟨hg1, hv1⟩ := make_raw_ok h1
  obtain ⟨hg2, hv2⟩ := make_controlled_ok h2
  subst hg1
  subst hg2
  refine ⟨rfl, rfl, rfl, gateEq_refl _, ?_⟩
  intro α β _ _ _ U a a' b b' t t' hla hla'
  have hu2 : ∀ z ∈ cv2.accepted, z.length = a.length := by
    intro z hz
    rw [validate_uniform hv2 z hz, validate_numControls hv2, hla]
  by_cases hab : a = a'
  · subst hab
    by_cases hbb : b = b'
    · subst hbb
      have hcc := accepts_concat cv2 cv1 a b hu2
      cases hc2 : cv2.accepts a <;> cases hc1 : cv1.accepts b <;>
        simp [controlledUnitary, hcc, hc2, hc1, Prod.ext_iff]
    · have hne : a ++ b ≠ a ++ b' := by
        intro hcontra
        exact hbb (List.append_cancel_left hcontra)
      cases hc2 : cv2.accepts a <;>
        simp [controlledUnitary, hne, hbb, hc2, Prod.ext_iff]
  · have hne : a ++ b ≠ a' ++ b' := by
      intro hco
      exact hab (List.append_inj hco (hla.trans hla'.symm)).1
    simp [controlledUnitary, hne, hab]

/-- Witness for C3: a one-control gate controlled once more, checked on the
flattened structure and on one entry of the lifted unitary. -/
theorem nested_controls_flatten_w :
    (⟨ySub, (ControlValues.productOfSums [[0]]).concat (.productOfSums [[1]]),
        [2, 2]⟩ : CGate).sub_gate = ySub ∧
    (⟨ySub, (ControlValues.productOfSums [[0]]).concat (.productOfSums [[1]]),
        [2, 2]⟩ : CGate).control_qid_shape = [2] ++ [2] ∧
    controlledUnitary (α := ℚ)
      ((ControlValues.productOfSums [[0]]).concat (.productOfSums [[1]])) uX
      ([0] ++ [1], 0) ([0] ++ [1], 1) =
    controlledUnitary (ControlValues.productOfSums [[0]])
      (controlledUnitary (ControlValues.productOfSums [[1]]) uX)
      ([0], ([1], 0)) ([0], ([1], 1)) := by
  have h := nested_controls_flatten ySub (.productOfSums [[1]])
    (.productOfSums [[0]]) [2] [2]
    ⟨ySub, .productOfSums [[1]], [2]⟩
    ⟨ySub, (ControlValues.productOfSums [[0]]).concat (.productOfSums [[1]]), [2, 2]⟩
    rfl rfl
  exact ⟨h.1, h.2.1, h.2.2.2.2 uX [0] [0] [1] [1] 0 1 rfl rfl⟩

/-- Modelled from the spec: the axis of an elementary power gate of the
missing decomposition engine (bit-flip X or phase-flip Z, spec 4.3 step 1). -/
inductive PKind where
  | flipX : PKind
  | flipZ : PKind
deriving DecidableEq

/-- Modelled from the spec: the elementary power-gate family handled by the
canonical-pair table of the missing decomposition engine: an axis, a number
of built-in qubit controls (0 for X/Z, 1 for CX/CZ, 2 for CCX/CCZ), a
rational exponent, a rational global phase shift (the unitary carries an
overall factor of exp(i pi shift exponent)), and a flag marking a symbolic
exponent. -/
structure PowGate where
  kind : PKind
  controls : ℕ
  exponent : ℚ
  shift : ℚ
  symbolic : Bool
deriving DecidableEq

/-- Modelled from the spec: the sub-gate families handled by the
decomposition engine of the missing controlled-gate implementation: the
elementary bit-flip/phase-flip power family, and the zero-qubit global
phase gate with angle t (in units of pi), the tests' one-by-one matrix
gate. -/
inductive SubG where
  | pow : PowGate → SubG
  | phase : ℚ → SubG
deriving DecidableEq

/-- Number of qubits the sub-gate itself acts on. -/
def SubG.arity : SubG → ℕ
  | .pow g => g.controls + 1
  | .phase _ => 0

/-- Modelled from the spec: a controlled application handed to the
decomposition engine: a sub-gate plus the wrapper's control-value object
and control shape. -/
structure CtrlGate where
  sub : SubG
  cv : ControlValues
  cshape : List ℕ
deriving DecidableEq

/-- An operation emitted by the decomposition engine: an elementary power
gate with controls on qubits 0..k-1 and target qubit k, or a plain
bit-flip X on one qubit (the conjugation gate of spec 4.3 step 3). -/
inductive DOp where
  | elem : PowGate → DOp
  | flip : ℕ → DOp
deriving DecidableEq

/-- The positions of an exact control assignment holding the value 0: the
control qubits needing bit-flip conjugation in spec 4.3 step 3. -/
def zeroPositions (a : List ℕ) : List ℕ :=
  (List.range a.length).filter fun j => decide (a.getD j 1 = 0)

/-- The conjugation layer for one exact assignment: an X on every control
qubit whose accepted value is 0. -/
def flipsFor (a : List ℕ) : List DOp :=
  (zeroPositions a).map DOp.flip

/-- Modelled from the spec: the operations replacing the sub-gate once all
k controls are default-valued (spec 4.3 steps 1-2).  A controlled global
phase becomes a (k-1)-controlled Z rotation ending on the last control
qubit; an elementary power gate is absorbed control by control into the
canonical table while the total control count stays within the canonical
forms (step 1), a nonzero global shift being first extracted into a
trailing controlled phase rotation of exponent shift*exponent (step 2; for
a single control this is the plain rotation on the first control qubit of
the spec's description, for several controls it carries the remaining
controls).  Symbolic exponents and control counts beyond the canonical
table fall through to "no decomposition" (step 5). -/
def coreFor (sub : SubG) (k : ℕ) : Option (List DOp) :=
  match sub with
  | .phase t => some [.elem ⟨.flipZ, k - 1, t, 0, false⟩]
  | .pow g =>
      if g.symbolic then none
      else if g.controls + k ≤ 2 then
        if g.shift = 0 then
          some [.elem ⟨g.kind, g.controls + k, g.exponent, 0, false⟩]
        else
          some [.elem ⟨g.kind, g.controls + k, g.exponent, 0, false⟩,
                .elem ⟨.flipZ, k - 1, g.shift * g.exponent, 0, false⟩]
      else none

/-- Modelled from the spec: the decomposition engine of the missing
controlled-gate implementation (spec 4.3).  Control qudits of dimension
other than 2 fall through to the generic fallback (step 5, "unusual qudit
dimension").  Otherwise the accepted-assignment set - the common semantics
of both control-value representations (spec 9) - is split into its exact
assignments (step 4's case-splitting carried all the way to one-point
conjunctions; the spec leaves the splitting strategy open, spec 9), and
each branch conjugates its zero-valued controls with bit-flips (step 3)
around the default-control core (steps 1-2). -/
def decompose (g : CtrlGate) : Option (List DOp) :=
  let k := g.cshape.length
  if g.cshape ≠ List.replicate k 2 then none
  else if k = 0 then none
  else if g.cv.validate g.cshape = false then none
  else
    let A := g.cv.accepted.dedup
    if A.isEmpty then none
    else
      (coreFor g.sub k).map fun core =>
        (A.map fun a => flipsFor a ++ core ++ flipsFor a).flatten

/-- A gate appearing in a circuit during recursive decomposition: an
engine-emitted operation (terminal) or a controlled wrapper. -/
inductive EGate where
  | op : DOp → EGate
  | ctrl : CtrlGate → EGate
deriving DecidableEq

/-- One decomposition step on a circuit gate: emitted operations expose no
further decomposition; wrappers go through the engine. -/
def decomposeOnceE : EGate → Option (List EGate)
  | .op _ => none
  | .ctrl g => (decompose g).map (List.map .op)

/-- Modelled from the spec: full recursive decomposition with explicit
fuel: keep decomposing until gates expose no further decomposition. -/
def fullDecompose : ℕ → EGate → List EGate
  | 0, g => [g]
  | fuel + 1, g =>
    match decomposeOnceE g with
    | none => [g]
    | some hs => (hs.map (fullDecompose fuel)).flatten

theorem fullDecompose_op (fuel : ℕ) (x : DOp) :
    fullDecompose fuel (.op x) = [.op x] := by
  cases fuel <;> simp [fullDecompose, decomposeOnceE]

/-- The generic block entry of a controlled one-qubit gate embedded in an
n-qubit register: controls on qubits lo..k-1, target qubit k, identity
elsewhere. -/
def gateEntry {α : Type} [Zero α] [One α] (B : Bool → Bool → α) (n lo k : ℕ)
    (v w : Fin n → Bool) : α :=
  if hk : k < n then
    if ∀ j : Fin n, (j : ℕ) ≠ k → v j = w j then
      if ∀ j : Fin n, lo ≤ (j : ℕ) → (j : ℕ) < k → v j = true then
        B (v ⟨k, hk⟩) (w ⟨k, hk⟩)
      else if v ⟨k, hk⟩ = w ⟨k, hk⟩ then 1 else 0
    else 0
  else if v = w then 1 else 0

/-- Modelled from the spec: the dense unitary of an elementary power gate
embedded in an n-qubit register: controls on qubits 0..controls-1, target
qubit at position controls, identity elsewhere, all scaled by the global
phase factor of the gate (the abstract phase ph(shift*exponent), with
base k e the 2x2 unitary of axis k at exponent e and zero shift). -/
def opSem {α : Type} [CommRing α] (ph : ℚ → α)
    (base : PKind → ℚ → Bool → Bool → α) (n : ℕ) (g : PowGate) :
    Matrix (Fin n → Bool) (Fin n → Bool) α :=
  Matrix.of fun v w =>
    ph (g.shift * g.exponent) * gateEntry (base g.kind g.exponent) n 0 g.controls v w

/-- Coordinate flip on the qubits listed in S. -/
def flipSet (n : ℕ) (S : List ℕ) (v : Fin n → Bool) : Fin n → Bool :=
  fun i => if (i : ℕ) ∈ S then !(v i) else v i

/-- The permutation matrix of a basis relabeling. -/
def permM {α : Type} [Zero α] [One α] (n : ℕ)
    (σ : (Fin n → Bool) → (Fin n → Bool)) :
    Matrix (Fin n → Bool) (Fin n → Bool) α :=
  Matrix.of fun v w => if v = σ w then 1 else 0

/-- The dense unitary of one emitted operation: elementary gates as in
opSem, the conjugation flip as the bit-flip permutation of one qubit. -/
def dopSem {α : Type} [CommRing α] (ph : ℚ → α)
    (base : PKind → ℚ → Bool → Bool → α) (n : ℕ) :
    DOp → Matrix (Fin n → Bool) (Fin n → Bool) α
  | .elem g => opSem ph base n g
  | .flip j => permM n (flipSet n [j])

/-- The unitary of a produced operation list, composed in application
order starting from the identity (the order the tests replay
decompositions in). -/
def dcircuitSem {α : Type} [CommRing α] (ph : ℚ → α)
    (base : PKind → ℚ → Bool → Bool → α) (n : ℕ) (ops : List DOp) :
    Matrix (Fin n → Bool) (Fin n → Bool) α :=
  ops.foldl (fun acc o => dopSem ph base n o * acc) 1

/-- The control assignment read off the first k qubits of a basis vector. -/
def ctrlAssign (n k : ℕ) (v : Fin n → Bool) : List ℕ :=
  (List.range k).map fun j => if h : j < n then (if v ⟨j, h⟩ then 1 else 0) else 0

/-- Modelled from the spec: the dense unitary of a wrapper with k control
qubits and an acceptance predicate on their assignments: the sub-gate's
unitary (including its global phase factor) on accepted basis blocks, the
identity elsewhere.  The sub-gate occupies the qubits from position k on. -/
def cgSemW {α : Type} [CommRing α] (ph : ℚ → α)
    (base : PKind → ℚ → Bool → Bool → α) (n k : ℕ) (sub : SubG)
    (acc : List ℕ → Bool) :
    Matrix (Fin n → Bool) (Fin n → Bool) α :=
  Matrix.of fun v w =>
    if acc (ctrlAssign n k v) then
      match sub with
      | .phase t => if v = w then ph t else 0
      | .pow g =>
          ph (g.shift * g.exponent) *
            gateEntry (base g.kind g.exponent) n k (k + g.controls) v w
    else if v = w then 1 else 0

/-- The dense unitary of a controlled wrapper. -/
def cgSem {α : Type} [CommRing α] (ph : ℚ → α)
    (base : PKind → ℚ → Bool → Bool → α) (n : ℕ) (g : CtrlGate) :
    Matrix (Fin n → Bool) (Fin n → Bool) α :=
  cgSemW ph base n g.cshape.length g.sub (fun l => g.cv.accepts l)

theorem foldl_mul_acc {M β : Type} [Monoid M] (f : β → M) (l : List β) (acc : M) :
    l.foldl (fun a o => f o * a) acc = l.foldl (fun a o => f o * a) 1 * acc := by
  induction l generalizing acc with
  | nil => simp
  | cons o l ih =>
    simp only [List.foldl_cons]
    rw [ih (f o * acc), ih (f o * 1), mul_one, mul_assoc]

theorem dcircuitSem_append {α : Type} [CommRing α] (ph : ℚ → α)
    (base : PKind → ℚ → Bool → Bool → α) (n : ℕ) (xs ys : List DOp) :
    dcircuitSem ph base n (xs ++ ys) =
      dcircuitSem ph base n ys * dcircuitSem ph base n xs := by
  unfold dcircuitSem
  rw [List.foldl_append]
  exact foldl_mul_acc _ ys _

theorem permM_mul_permM {α : Type} [CommRing α] (n : ℕ)
    (σ τ : (Fin n → Bool) → (Fin n → Bool)) :
    (permM n σ : Matrix (Fin n → Bool) (Fin n → Bool) α) * permM n τ =
      permM n (fun v => σ (τ v)) := by
  ext v w
  simp only [Matrix.mul_apply, permM, Matrix.of_apply]
  rw [Finset.sum_eq_single (τ w)]
  · simp
  · intro u _ hu
    simp [hu]
  · intro h
    exact absurd (Finset.mem_univ _) h

theorem permM_mul_apply {α : Type} [CommRing α] (n : ℕ)
    (σ : (Fin n → Bool) → (Fin n → Bool)) (hσ : ∀ v, σ (σ v) = v)
    (M : Matrix (Fin n → Bool) (Fin n → Bool) α) (v w : Fin n → Bool) :
    ((permM n σ : Matrix (Fin n → Bool) (Fin n → Bool) α) * M) v w = M (σ v) w := by
  simp only [Matrix.mul_apply, permM, Matrix.of_apply]
  rw [Finset.sum_eq_single (σ v)]
  · simp [hσ]
  · intro u _ hu
    have hne : v ≠ σ u := by
      intro he
      apply hu
      rw [he, hσ]
    simp [hne]
  · intro h
    exact absurd (Finset.mem_univ _) h

theorem mul_permM_apply {α : Type} [CommRing α] (n : ℕ)
    (σ : (Fin n → Bool) → (Fin n → Bool))
    (M : Matrix (Fin n → Bool) (Fin n → Bool) α) (v w : Fin n → Bool) :
    (M * (permM n σ : Matrix (Fin n → Bool) (Fin n → Bool) α)) v w = M v (σ w) := by
  simp only [Matrix.mul_apply, permM, Matrix.of_apply]
  rw [Finset.sum_eq_single (σ w)]
  · simp
  · intro u _ hu
    simp [hu]
  · intro h
    exact absurd (Finset.mem_univ _) h

theorem flipSet_flipSet (n : ℕ) (S : List ℕ) (v : Fin n → Bool) :
    flipSet n S (flipSet n S v) = v := by
  funext i
  unfold flipSet
  by_cases h : (i : ℕ) ∈ S <;> simp [h]

theorem flipSet_singleton_comp (n : ℕ) (j : ℕ) (S : List ℕ) (hj : j ∉ S)
    (v : Fin n → Bool) :
    flipSet n S (flipSet n [j] v) = flipSet n (j :: S) v := by
  funext i
  unfold flipSet
  by_cases hiS : (i : ℕ) ∈ S
  · have hij : (i : ℕ) ≠ j := fun he => hj (he ▸ hiS)
    simp [hiS, hij]
  · by_cases hij : (i : ℕ) = j <;> simp [hiS, hij, hj]

theorem dcircuitSem_flips {α : Type} [CommRing α] (ph : ℚ → α)
    (base : PKind → ℚ → Bool → Bool → α) (n : ℕ) (S : List ℕ) (hS : S.Nodup) :
    dcircuitSem ph base n (S.map DOp.flip) =
      (permM n (flipSet n S) : Matrix (Fin n → Bool) (Fin n → Bool) α) := by
  induction S with
  | nil =>
    have h0 : flipSet n [] = fun v : Fin n → Bool => v := by
      funext v i
      simp [flipSet]
    rw [List.map_nil]
    ext v w
    simp [dcircuitSem, permM, h0, Matrix.one_apply]
  | cons j S ih =>
    rcases List.nodup_cons.mp hS with ⟨hj, hS2⟩
    have hsplit : (j :: S).map DOp.flip = [DOp.flip j] ++ S.map DOp.flip := rfl
    rw [hsplit, dcircuitSem_append, ih hS2]
    have h1 : dcircuitSem ph base n [DOp.flip j] =
        (permM n (flipSet n [j]) : Matrix (Fin n → Bool) (Fin n → Bool) α) := by
      simp [dcircuitSem, dopSem, mul_one]
    have hcomp : (fun v => flipSet n S (flipSet n [j] v)) = flipSet n (j :: S) := by
      funext v
      exact flipSet_singleton_comp n j S hj v
    rw [h1, permM_mul_permM, hcomp]

theorem mem_zeroPositions {a : List ℕ} {j : ℕ} :
    j ∈ zeroPositions a ↔ j < a.length ∧ a.getD j 1 = 0 := by
  simp [zeroPositions, List.mem_filter, List.mem_range]

theorem zeroPositions_nodup (a : List ℕ) : (zeroPositions a).Nodup :=
  (List.nodup_range _).filter _

theorem ctrlAssign_length (n k : ℕ) (v : Fin n → Bool) :
    (ctrlAssign n k v).length = k := by
  simp [ctrlAssign]

theorem ctrlAssign_getD (n k : ℕ) (v : Fin n → Bool) (j : ℕ) (hj : j < k) :
    (ctrlAssign n k v).getD j 0 =
      if h : j < n then (if v ⟨j, h⟩ then 1 else 0) else 0 := by
  have hlen : j < (ctrlAssign n k v).length := by
    rw [ctrlAssign_length]; exact hj
  rw [List.getD_eq_getElem _ _ hlen]
  simp [ctrlAssign]

theorem list_eq_of_getD {l1 l2 : List ℕ} (hlen : l1.length = l2.length)
    (h : ∀ j, j < l1.length → l1.getD j 0 = l2.getD j 0) : l1 = l2 := by
  apply List.ext_getElem hlen
  intro i h1 h2
  have hh := h i h1
  rwa [List.getD_eq_getElem _ _ h1, List.getD_eq_getElem _ _ h2] at hh

theorem ctrlAssign_eq_replicate_iff (n k : ℕ) (hkn : k ≤ n) (v : Fin n → Bool) :
    ctrlAssign n k v = List.replicate k 1 ↔
      ∀ j : Fin n, (j : ℕ) < k → v j = true := by
  constructor
  · intro h j hj
    have hjn : (j : ℕ) < n := j.isLt
    have hd := congrArg (fun l => l.getD (j : ℕ) 0) h
    simp only at hd
    rw [ctrlAssign_getD n k v (j : ℕ) hj, dif_pos hjn] at hd
    have hrep : (List.replicate k 1).getD (j : ℕ) 0 = 1 := by
      rw [List.getD_eq_getElem _ _ (by simpa using hj), List.getElem_replicate]
    rw [hrep] at hd
    by_cases hv : v j = true
    · exact hv
    · rw [if_neg hv] at hd
      simp at hd
  · intro h
    apply list_eq_of_getD
    · rw [ctrlAssign_length, List.length_replicate]
    · intro j hj
      rw [ctrlAssign_length] at hj
      rw [ctrlAssign_getD n k v j hj]
      have hjn : j < n := lt_of_lt_of_le hj hkn
      rw [dif_pos hjn, if_pos (h ⟨j, hjn⟩ hj),
        List.getD_eq_getElem _ _ (by simpa using hj), List.getElem_replicate]

theorem ctrlAssign_ne_imp (n k : ℕ) (u v : Fin n → Bool)
    (h : ctrlAssign n k u ≠ ctrlAssign n k v) :
    ∃ j : Fin n, (j : ℕ) < k ∧ u j ≠ v j := by
  by_contra hno
  push_neg at hno
  apply h
  apply list_eq_of_getD (by simp [ctrlAssign_length])
  intro j hj
  rw [ctrlAssign_length] at hj
  rw [ctrlAssign_getD n k u j hj, ctrlAssign_getD n k v j hj]
  by_cases hjn : j < n
  · rw [dif_pos hjn, dif_pos hjn, hno ⟨j, hjn⟩ hj]
  · rw [dif_neg hjn, dif_neg hjn]

theorem ctrlAssign_flipSet (n k : ℕ) (a : List ℕ) (hlen : a.length = k)
    (hbound : ∀ x ∈ a, x < 2) (hkn : k ≤ n) (v : Fin n → Bool) :
    (ctrlAssign n k (flipSet n (zeroPositions a) v) = List.replicate k 1) ↔
      ctrlAssign n k v = a := by
  rw [ctrlAssign_eq_replicate_iff n k hkn]
  constructor
  · intro h
    apply list_eq_of_getD (by rw [ctrlAssign_length, hlen])
    intro j hj
    rw [ctrlAssign_length] at hj
    have hjn : j < n := lt_of_lt_of_le hj hkn
    have hja : j < a.length := by omega
    have hgd : a.getD j 0 = a.getD j 1 := by
      rw [List.getD_eq_getElem _ _ hja, List.getD_eq_getElem _ _ hja]
    rw [ctrlAssign_getD n k v j hj, dif_pos hjn]
    have hfv := h ⟨j, hjn⟩ hj
    unfold flipSet at hfv
    by_cases hz : j ∈ zeroPositions a
    · have ha0 : a.getD j 1 = 0 := (mem_zeroPositions.mp hz).2
      rw [if_pos hz] at hfv
      have hvf : v ⟨j, hjn⟩ = false := by
        cases hvj : v ⟨j, hjn⟩
        · rfl
        · rw [hvj] at hfv; simp at hfv
      rw [hvf, hgd, ha0]
      rfl
    · have ha1 : a.getD j 1 = 1 := by
        have hne0 : a.getD j 1 ≠ 0 := fun h0 => hz (mem_zeroPositions.mpr ⟨hja, h0⟩)
        have hlt : a.getD j 1 < 2 := by
          rw [List.getD_eq_getElem _ _ hja]
          exact hbound _ (List.getElem_mem _)
        omega
      rw [if_neg hz] at hfv
      rw [hfv, hgd, ha1]
      rfl
  · intro h j hj
    have hja : (j : ℕ) < a.length := by omega
    have hgd : a.getD (j : ℕ) 0 = a.getD (j : ℕ) 1 := by
      rw [List.getD_eq_getElem _ _ hja, List.getD_eq_getElem _ _ hja]
    have hd := congrArg (fun l => l.getD (j : ℕ) 0) h
    simp only at hd
    rw [ctrlAssign_getD n k v (j : ℕ) hj, dif_pos j.isLt] at hd
    unfold flipSet
    by_cases hz : (j : ℕ) ∈ zeroPositions a
    · have ha0 : a.getD (j : ℕ) 1 = 0 := (mem_zeroPositions.mp hz).2
      rw [if_pos hz]
      have hvf : v j = false := by
        cases hvj : v j
        · rfl
        · rw [hvj] at hd
          rw [hgd, ha0] at hd
          simp at hd
      rw [hvf]
      rfl
    · have hne0 : a.getD (j : ℕ) 1 ≠ 0 :=
        fun h0 => hz (mem_zeroPositions.mpr ⟨hja, h0⟩)
      rw [if_neg hz]
      cases hvj : v j
      · rw [hvj] at hd
        rw [hgd] at hd
        exact absurd hd.symm hne0
      · rfl

theorem gateEntry_split {α : Type} [Zero α] [One α] (B : Bool → Bool → α)
    (n k tgt : ℕ) (hk : k ≤ tgt) (htgt : tgt < n) (v w : Fin n → Bool) :
    gateEntry B n 0 tgt v w =
      if ctrlAssign n k v = List.replicate k 1 then gateEntry B n k tgt v w
      else if v = w then 1 else 0 := by
  have hkn : k ≤ n := le_of_lt (lt_of_le_of_lt hk htgt)
  by_cases hacc : ∀ j : Fin n, (j : ℕ) < k → v j = true
  · rw [if_pos ((ctrlAssign_eq_replicate_iff n k hkn v).mpr hacc)]
    unfold gateEntry
    rw [dif_pos htgt, dif_pos htgt]
    by_cases hbd : ∀ j : Fin n, (j : ℕ) ≠ tgt → v j = w j
    · rw [if_pos hbd, if_pos hbd]
      have hciff : (∀ j : Fin n, 0 ≤ (j : ℕ) → (j : ℕ) < tgt → v j = true) ↔
          (∀ j : Fin n, k ≤ (j : ℕ) → (j : ℕ) < tgt → v j = true) := by
        constructor
        · intro hc j h1 h2
          exact hc j (Nat.zero_le _) h2
        · intro hc j _ h2
          by_cases hjk : (j : ℕ) < k
          · exact hacc j hjk
          · exact hc j (by omega) h2
      by_cases hc : ∀ j : Fin n, k ≤ (j : ℕ) → (j : ℕ) < tgt → v j = true
      · rw [if_pos (hciff.mpr hc), if_pos hc]
      · rw [if_neg (fun hh => hc (hciff.mp hh)), if_neg hc]
    · rw [if_neg hbd, if_neg hbd]
  · rw [if_neg (fun he => hacc ((ctrlAssign_eq_replicate_iff n k hkn v).mp he))]
    push_neg at hacc
    obtain ⟨j0, hj0k, hj0f⟩ := hacc
    unfold gateEntry
    rw [dif_pos htgt]
    by_cases hbd : ∀ j : Fin n, (j : ℕ) ≠ tgt → v j = w j
    · rw [if_pos hbd]
      have hcf : ¬ ∀ j : Fin n, 0 ≤ (j : ℕ) → (j : ℕ) < tgt → v j = true := by
        intro hc
        exact hj0f (hc j0 (Nat.zero_le _) (by omega))
      rw [if_neg hcf]
      have hveq : (v ⟨tgt, htgt⟩ = w ⟨tgt, htgt⟩) ↔ v = w := by
        constructor
        · intro hvt
          funext i
          by_cases hit : (i : ℕ) = tgt
          · rw [show i = ⟨tgt, htgt⟩ from Fin.ext hit]
            exact hvt
          · exact hbd i hit
        · intro hvw
          rw [hvw]
      by_cases hvt : v ⟨tgt, htgt⟩ = w ⟨tgt, htgt⟩
      · rw [if_pos hvt, if_pos (hveq.mp hvt)]
      · rw [if_neg hvt, if_neg (fun hh => hvt (hveq.mpr hh))]
    · rw [if_neg hbd]
      have hvw : v ≠ w := by
        intro he
        exact hbd fun j hj => by rw [he]
      rw [if_neg hvw]

theorem gateEntry_flipSet {α : Type} [Zero α] [One α] (B : Bool → Bool → α)
    (n k tgt : ℕ) (S : List ℕ) (hS : ∀ j ∈ S, j < k) (hk : k ≤ tgt)
    (v w : Fin n → Bool) :
    gateEntry B n k tgt (flipSet n S v) (flipSet n S w) =
      gateEntry B n k tgt v w := by
  have hfixv : ∀ i : Fin n, k ≤ (i : ℕ) → flipSet n S v i = v i := by
    intro i hi
    unfold flipSet
    rw [if_neg]
    intro hmem
    exact absurd (hS _ hmem) (by omega)
  have hfixw : ∀ i : Fin n, k ≤ (i : ℕ) → flipSet n S w i = w i := by
    intro i hi
    unfold flipSet
    rw [if_neg]
    intro hmem
    exact absurd (hS _ hmem) (by omega)
  have heq : ∀ i : Fin n, (flipSet n S v i = flipSet n S w i) ↔ v i = w i := by
    intro i
    unfold flipSet
    by_cases h : (i : ℕ) ∈ S <;> simp [h]
  unfold gateEntry
  by_cases htgt : tgt < n
  · rw [dif_pos htgt, dif_pos htgt]
    have h1 : (∀ j : Fin n, (j : ℕ) ≠ tgt → flipSet n S v j = flipSet n S w j) ↔
        (∀ j : Fin n, (j : ℕ) ≠ tgt → v j = w j) := by
      constructor
      · intro hh j hj
        exact (heq j).mp (hh j hj)
      · intro hh j hj
        exact (heq j).mpr (hh j hj)
    have h2 : (∀ j : Fin n, k ≤ (j : ℕ) → (j : ℕ) < tgt → flipSet n S v j = true) ↔
        (∀ j : Fin n, k ≤ (j : ℕ) → (j : ℕ) < tgt → v j = true) := by
      constructor
      · intro hh j ha hb
        rw [← hfixv j ha]
        exact hh j ha hb
      · intro hh j ha hb
        rw [hfixv j ha]
        exact hh j ha hb
    rw [hfixv ⟨tgt, htgt⟩ (by simpa using hk), hfixw ⟨tgt, htgt⟩ (by simpa using hk)]
    exact if_congr h1 (if_congr h2 rfl rfl) rfl
  · rw [dif_neg htgt, dif_neg htgt]
    have hiff : (flipSet n S v = flipSet n S w) ↔ v = w := by
      constructor
      · intro hh
        funext i
        exact (heq i).mp (congrFun hh i)
      · intro hh
        rw [hh]
    exact if_congr hiff rfl rfl

theorem opSem_z_diag {α : Type} [CommRing α] (ph : ℚ → α)
    (base : PKind → ℚ → Bool → Bool → α) (hph0 : ph 0 = 1)
    (hZ : ∀ t b b', base PKind.flipZ t b b' =
      if b = b' then (if b = true then ph t else 1) else 0)
    (n m : ℕ) (hm : m < n) (t : ℚ) :
    opSem ph base n ⟨.flipZ, m, t, 0, false⟩ =
      Matrix.diagonal (fun v : Fin n → Bool =>
        if ∀ j : Fin n, (j : ℕ) < m + 1 → v j = true then ph t else 1) := by
  ext v w
  simp only [opSem, Matrix.of_apply, Matrix.diagonal_apply, zero_mul, hph0, one_mul]
  unfold gateEntry
  rw [dif_pos hm]
  by_cases hbd : ∀ j : Fin n, (j : ℕ) ≠ m → v j = w j
  · rw [if_pos hbd]
    by_cases hc : ∀ j : Fin n, 0 ≤ (j : ℕ) → (j : ℕ) < m → v j = true
    · rw [if_pos hc, hZ]
      by_cases hvm : v ⟨m, hm⟩ = w ⟨m, hm⟩
      · have hvw : v = w := by
          funext i
          by_cases him : (i : ℕ) = m
          · rw [show i = ⟨m, hm⟩ from Fin.ext him]
            exact hvm
          · exact hbd i him
        rw [if_pos hvm, if_pos hvw]
        have hall : (∀ j : Fin n, (j : ℕ) < m + 1 → v j = true) ↔
            v ⟨m, hm⟩ = true := by
          constructor
          · intro hh
            exact hh ⟨m, hm⟩ (by simp)
          · intro hh j hj
            by_cases hjm : (j : ℕ) = m
            · rw [show j = ⟨m, hm⟩ from Fin.ext hjm]
              exact hh
            · exact hc j (Nat.zero_le _) (by omega)
        by_cases hvt : v ⟨m, hm⟩ = true
        · rw [if_pos hvt, if_pos (hall.mpr hvt)]
        · rw [if_neg hvt, if_neg (fun hh => hvt (hall.mp hh))]
      · have hvw : v ≠ w := fun he => hvm (by rw [he])
        rw [if_neg hvm, if_neg hvw]
    · rw [if_neg hc]
      push_neg at hc
      obtain ⟨j0, hj0a, hj0b, hj0f⟩ := hc
      have hnall : ¬ ∀ j : Fin n, (j : ℕ) < m + 1 → v j = true := by
        intro hh
        exact hj0f (hh j0 (by omega))
      by_cases hvm : v ⟨m, hm⟩ = w ⟨m, hm⟩
      · have hvw : v = w := by
          funext i
          by_cases him : (i : ℕ) = m
          · rw [show i = ⟨m, hm⟩ from Fin.ext him]
            exact hvm
          · exact hbd i him
        rw [if_pos hvm, if_pos hvw, if_neg hnall]
      · have hvw : v ≠ w := fun he => hvm (by rw [he])
        rw [if_neg hvm, if_neg hvw]
  · rw [if_neg hbd]
    have hvw : v ≠ w := by
      intro he
      exact hbd fun j hj => by rw [he]
    rw [if_neg hvw]

theorem dcircuitSem_single {α : Type} [CommRing α] (ph : ℚ → α)
    (base : PKind → ℚ → Bool → Bool → α) (n : ℕ) (o : DOp) :
    dcircuitSem ph base n [o] = dopSem ph base n o := by
  simp [dcircuitSem]

theorem dcircuitSem_pair {α : Type} [CommRing α] (ph : ℚ → α)
    (base : PKind → ℚ → Bool → Bool → α) (n : ℕ) (o1 o2 : DOp) :
    dcircuitSem ph base n [o1, o2] =
      dopSem ph base n o2 * dopSem ph base n o1 := by
  simp [dcircuitSem, mul_one]

theorem cgSemW_false {α : Type} [CommRing α] (ph : ℚ → α)
    (base : PKind → ℚ → Bool → Bool → α) (n k : ℕ) (sub : SubG)
    (acc : List ℕ → Bool) (hacc : ∀ l, acc l = false) :
    cgSemW ph base n k sub acc = 1 := by
  ext v w
  unfold cgSemW
  simp only [Matrix.of_apply]
  rw [if_neg (by simp [hacc]), Matrix.one_apply]

theorem cgSemW_congr {α : Type} [CommRing α] (ph : ℚ → α)
    (base : PKind → ℚ → Bool → Bool → α) (n k : ℕ) (sub : SubG)
    {acc1 acc2 : List ℕ → Bool} (h : ∀ l, acc1 l = acc2 l) :
    cgSemW ph base n k sub acc1 = cgSemW ph base n k sub acc2 := by
  rw [funext h]

theorem cgSemW_offblock {α : Type} [CommRing α] (ph : ℚ → α)
    (base : PKind → ℚ → Bool → Bool → α) (n k : ℕ) (sub : SubG)
    (acc : List ℕ → Bool) (v u : Fin n → Bool)
    (hne : ctrlAssign n k u ≠ ctrlAssign n k v) :
    cgSemW ph base n k sub acc v u = 0 := by
  obtain ⟨j, hjk, hju⟩ := ctrlAssign_ne_imp n k u v hne
  have hvu : v ≠ u := by
    intro he
    exact hju (by rw [he])
  cases sub with
  | phase t =>
    simp only [cgSemW, Matrix.of_apply]
    by_cases hacc : acc (ctrlAssign n k v) = true
    · rw [if_pos hacc, if_neg hvu]
    · rw [if_neg hacc, if_neg hvu]
  | pow g =>
    simp only [cgSemW, Matrix.of_apply]
    by_cases hacc : acc (ctrlAssign n k v) = true
    · rw [if_pos hacc]
      have hnbd : ¬ ∀ i : Fin n, (i : ℕ) ≠ k + g.controls → v i = u i := by
        intro hall
        exact hju (hall j (by omega)).symm
      unfold gateEntry
      by_cases htgt : k + g.controls < n
      · rw [dif_pos htgt, if_neg hnbd, mul_zero]
      · rw [dif_neg htgt, if_neg hvu, mul_zero]
    · rw [if_neg hacc, if_neg hvu]

theorem cgSemW_mul_disjoint {α : Type} [CommRing α] (ph : ℚ → α)
    (base : PKind → ℚ → Bool → Bool → α) (n k : ℕ) (sub : SubG)
    (accA accB : List ℕ → Bool)
    (hdis : ∀ l, ¬(accA l = true ∧ accB l = true)) :
    cgSemW ph base n k sub accA * cgSemW ph base n k sub accB =
      cgSemW ph base n k sub (fun l => accA l || accB l) := by
  ext v w
  rw [Matrix.mul_apply]
  by_cases hA : accA (ctrlAssign n k v) = true
  · have hB : ¬ accB (ctrlAssign n k v) = true := fun hb => hdis _ ⟨hA, hb⟩
    have hsum : ∀ u : Fin n → Bool,
        cgSemW ph base n k sub accA v u * cgSemW ph base n k sub accB u w =
        cgSemW ph base n k sub accA v u * (if u = w then 1 else 0) := by
      intro u
      by_cases hcu : ctrlAssign n k u = ctrlAssign n k v
      · have hBu : ¬ accB (ctrlAssign n k u) = true := by
          rw [hcu]
          exact hB
        have hBe : cgSemW ph base n k sub accB u w = if u = w then 1 else 0 := by
          unfold cgSemW
          simp only [Matrix.of_apply]
          rw [if_neg hBu]
        rw [hBe]
      · rw [cgSemW_offblock ph base n k sub accA v u hcu, zero_mul, zero_mul]
    rw [Finset.sum_congr rfl (fun u _ => hsum u)]
    have hcollapse : (∑ u : Fin n → Bool,
        cgSemW ph base n k sub accA v u * (if u = w then 1 else 0)) =
        cgSemW ph base n k sub accA v w := by
      rw [Finset.sum_eq_single w]
      · simp
      · intro u _ hu
        simp [hu]
      · intro hmem
        exact absurd (Finset.mem_univ _) hmem
    rw [hcollapse]
    unfold cgSemW
    simp only [Matrix.of_apply]
    rw [if_pos hA, if_pos (show (accA (ctrlAssign n k v) ||
      accB (ctrlAssign n k v)) = true by simp [hA])]
  · have hAe : ∀ u : Fin n → Bool,
        cgSemW ph base n k sub accA v u = if v = u then 1 else 0 := by
      intro u
      unfold cgSemW
      simp only [Matrix.of_apply]
      rw [if_neg hA]
    have hsum : (∑ u : Fin n → Bool,
        cgSemW ph base n k sub accA v u * cgSemW ph base n k sub accB u w) =
        cgSemW ph base n k sub accB v w := by
      rw [Finset.sum_congr rfl (fun u _ => by rw [hAe u])]
      rw [Finset.sum_eq_single v]
      · simp
      · intro u _ hu
        have hvu : v ≠ u := fun he => hu he.symm
        simp [hvu]
      · intro hmem
        exact absurd (Finset.mem_univ _) hmem
    rw [hsum]
    have hor : (accA (ctrlAssign n k v) || accB (ctrlAssign n k v)) =
        accB (ctrlAssign n k v) := by
      have hAf : accA (ctrlAssign n k v) = false := by
        cases hv : accA (ctrlAssign n k v)
        · rfl
        · exact absurd hv hA
      rw [hAf, Bool.false_or]
    unfold cgSemW
    simp only [Matrix.of_apply]
    simp only [hor]

theorem core_sem {α : Type} [CommRing α] (ph : ℚ → α)
    (base : PKind → ℚ → Bool → Bool → α) (hph0 : ph 0 = 1)
    (hZ : ∀ t b b', base PKind.flipZ t b b' =
      if b = b' then (if b = true then ph t else 1) else 0)
    (n k : ℕ) (sub : SubG) (core : List DOp)
    (hcore : coreFor sub k = some core) (hk : 1 ≤ k)
    (hn : n = k + sub.arity) :
    dcircuitSem ph base n core =
      cgSemW ph base n k sub (fun l => decide (l = List.replicate k 1)) := by
  cases sub with
  | phase t =>
    simp only [coreFor, Option.some.injEq] at hcore
    subst hcore
    rw [dcircuitSem_single]
    simp only [dopSem]
    have hkn : k ≤ n := by
      simp [SubG.arity] at hn
      omega
    have hm : k - 1 < n := by omega
    rw [opSem_z_diag ph base hph0 hZ n (k - 1) hm t]
    ext v w
    rw [Matrix.diagonal_apply]
    simp only [cgSemW, Matrix.of_apply]
    have hk1 : k - 1 + 1 = k := by omega
    have hiff : (∀ j : Fin n, (j : ℕ) < k - 1 + 1 → v j = true) ↔
        (decide (ctrlAssign n k v = List.replicate k 1) = true) := by
      rw [hk1]
      constructor
      · intro hh
        exact decide_eq_true ((ctrlAssign_eq_replicate_iff n k hkn v).mpr hh)
      · intro hh
        exact (ctrlAssign_eq_replicate_iff n k hkn v).mp (of_decide_eq_true hh)
    by_cases hc : decide (ctrlAssign n k v = List.replicate k 1) = true
    · rw [if_pos (hiff.mpr hc), if_pos hc]
    · rw [if_neg (fun hh => hc (hiff.mp hh)), if_neg hc]
  | pow g =>
    simp only [coreFor] at hcore
    by_cases hsym : g.symbolic = true
    · rw [if_pos hsym] at hcore
      exact Option.noConfusion hcore
    · rw [if_neg hsym] at hcore
      by_cases hck : g.controls + k ≤ 2
      · rw [if_pos hck] at hcore
        have htgt : k + g.controls < n := by
          simp [SubG.arity] at hn
          omega
        have hkn : k ≤ n := by omega
        have hadd : g.controls + k = k + g.controls := Nat.add_comm _ _
        by_cases hs : g.shift = 0
        · rw [if_pos hs] at hcore
          simp only [Option.some.injEq] at hcore
          subst hcore
          rw [dcircuitSem_single]
          simp only [dopSem]
          ext v w
          simp only [opSem, Matrix.of_apply, zero_mul, hph0, one_mul]
          rw [hadd,
            gateEntry_split (base g.kind g.exponent) n k (k + g.controls)
              (by omega) htgt v w]
          simp only [cgSemW, Matrix.of_apply, decide_eq_true_eq]
          by_cases hc : ctrlAssign n k v = List.replicate k 1
          · rw [if_pos hc, hs, zero_mul, hph0, one_mul, if_pos hc]
          · rw [if_neg hc, if_neg hc]
        · rw [if_neg hs] at hcore
          simp only [Option.some.injEq] at hcore
          subst hcore
          rw [dcircuitSem_pair]
          simp only [dopSem]
          have hm : k - 1 < n := by omega
          rw [opSem_z_diag ph base hph0 hZ n (k - 1) hm (g.shift * g.exponent)]
          ext v w
          rw [Matrix.diagonal_mul]
          simp only [opSem, Matrix.of_apply, zero_mul, hph0, one_mul]
          rw [hadd,
            gateEntry_split (base g.kind g.exponent) n k (k + g.controls)
              (by omega) htgt v w]
          simp only [cgSemW, Matrix.of_apply, decide_eq_true_eq]
          have hk1 : k - 1 + 1 = k := by omega
          by_cases hc : ctrlAssign n k v = List.replicate k 1
          · rw [if_pos hc]
            have hdall : ∀ j : Fin n, (j : ℕ) < k - 1 + 1 → v j = true := by
              rw [hk1]
              exact (ctrlAssign_eq_replicate_iff n k hkn v).mp hc
            rw [if_pos hdall, if_pos hc]
          · rw [if_neg hc]
            have hdnall : ¬ ∀ j : Fin n, (j : ℕ) < k - 1 + 1 → v j = true := by
              rw [hk1]
              intro hh
              exact hc ((ctrlAssign_eq_replicate_iff n k hkn v).mpr hh)
            rw [if_neg hdnall, one_mul, if_neg hc]
      · rw [if_neg hck] at hcore
        exact Option.noConfusion hcore

theorem branch_sem {α : Type} [CommRing α] (ph : ℚ → α)
    (base : PKind → ℚ → Bool → Bool → α) (hph0 : ph 0 = 1)
    (hZ : ∀ t b b', base PKind.flipZ t b b' =
      if b = b' then (if b = true then ph t else 1) else 0)
    (n k : ℕ) (sub : SubG) (core : List DOp)
    (hcore : coreFor sub k = some core) (hk : 1 ≤ k)
    (hn : n = k + sub.arity) (a : List ℕ) (hlen : a.length = k)
    (hbound : ∀ x ∈ a, x < 2) :
    dcircuitSem ph base n (flipsFor a ++ core ++ flipsFor a) =
      cgSemW ph base n k sub (fun l => decide (l = a)) := by
  have hkn : k ≤ n := by
    cases sub <;> simp [SubG.arity] at hn <;> omega
  have hflips : dcircuitSem ph base n (flipsFor a) =
      (permM n (flipSet n (zeroPositions a)) :
        Matrix (Fin n → Bool) (Fin n → Bool) α) :=
    dcircuitSem_flips ph base n (zeroPositions a) (zeroPositions_nodup a)
  have hinv : ∀ v,
      flipSet n (zeroPositions a) (flipSet n (zeroPositions a) v) = v :=
    fun v => flipSet_flipSet n (zeroPositions a) v
  have hS : ∀ j ∈ zeroPositions a, j < k := by
    intro j hj
    have hja := (mem_zeroPositions.mp hj).1
    omega
  rw [dcircuitSem_append, dcircuitSem_append, hflips,
    core_sem ph base hph0 hZ n k sub core hcore hk hn]
  ext v w
  rw [← mul_assoc, mul_permM_apply, permM_mul_apply n _ hinv]
  have hacc : (decide (ctrlAssign n k (flipSet n (zeroPositions a) v) =
      List.replicate k 1)) = decide (ctrlAssign n k v = a) := by
    have hiff := ctrlAssign_flipSet n k a hlen hbound hkn v
    by_cases h1 : ctrlAssign n k v = a
    · simp [h1, hiff.mpr h1]
    · have h2 : ¬(ctrlAssign n k (flipSet n (zeroPositions a) v) =
          List.replicate k 1) := fun hh => h1 (hiff.mp hh)
      simp [h1, h2]
  have hio : (flipSet n (zeroPositions a) v = flipSet n (zeroPositions a) w)
      ↔ v = w := by
    constructor
    · intro hh
      have hc := congrArg (flipSet n (zeroPositions a)) hh
      rwa [hinv, hinv] at hc
    · intro hh
      rw [hh]
  cases sub with
  | phase t =>
    simp only [cgSemW, Matrix.of_apply]
    rw [hacc]
    by_cases hca : decide (ctrlAssign n k v = a) = true
    · rw [if_pos hca, if_pos hca]
      by_cases hvw : v = w
      · rw [if_pos (hio.mpr hvw), if_pos hvw]
      · rw [if_neg (fun hh => hvw (hio.mp hh)), if_neg hvw]
    · rw [if_neg hca, if_neg hca]
      by_cases hvw : v = w
      · rw [if_pos (hio.mpr hvw), if_pos hvw]
      · rw [if_neg (fun hh => hvw (hio.mp hh)), if_neg hvw]
  | pow g =>
    simp only [cgSemW, Matrix.of_apply]
    rw [hacc]
    by_cases hca : decide (ctrlAssign n k v = a) = true
    · rw [if_pos hca, if_pos hca,
        gateEntry_flipSet (base g.kind g.exponent) n k (k + g.controls)
          (zeroPositions a) hS (by omega) v w]
    · rw [if_neg hca, if_neg hca]
      by_cases hvw : v = w
      · rw [if_pos (hio.mpr hvw), if_pos hvw]
      · rw [if_neg (fun hh => hvw (hio.mp hh)), if_neg hvw]

theorem branches_sem {α : Type} [CommRing α] (ph : ℚ → α)
    (base : PKind → ℚ → Bool → Bool → α) (hph0 : ph 0 = 1)
    (hZ : ∀ t b b', base PKind.flipZ t b b' =
      if b = b' then (if b = true then ph t else 1) else 0)
    (n k : ℕ) (sub : SubG) (core : List DOp)
    (hcore : coreFor sub k = some core) (hk : 1 ≤ k)
    (hn : n = k + sub.arity) (A : List (List ℕ)) (hA : A.Nodup)
    (hmemlen : ∀ a ∈ A, a.length = k)
    (hmembound : ∀ a ∈ A, ∀ x ∈ a, x < 2) :
    dcircuitSem ph base n
        ((A.map fun a => flipsFor a ++ core ++ flipsFor a).flatten) =
      cgSemW ph base n k sub (fun l => decide (l ∈ A)) := by
  induction A with
  | nil =>
    simp only [List.map_nil, List.flatten_nil]
    have h1 : dcircuitSem ph base n ([] : List DOp) = 1 := by
      simp [dcircuitSem]
    rw [h1, cgSemW_false ph base n k sub _ (fun l => by simp)]
  | cons a A ih =>
    rcases List.nodup_cons.mp hA with ⟨haA, hA2⟩
    have hdis : ∀ l, ¬(decide (l ∈ A) = true ∧ decide (l = a) = true) := by
      intro l hl
      rcases hl with ⟨hl1, hl2⟩
      exact haA (of_decide_eq_true hl2 ▸ of_decide_eq_true hl1)
    rw [List.map_cons, List.flatten_cons, dcircuitSem_append,
      ih hA2 (fun x hx => hmemlen x (List.mem_cons_of_mem _ hx))
        (fun x hx => hmembound x (List.mem_cons_of_mem _ hx)),
      branch_sem ph base hph0 hZ n k sub core hcore hk hn a
        (hmemlen a (List.mem_cons_self _ _))
        (hmembound a (List.mem_cons_self _ _)),
      cgSemW_mul_disjoint ph base n k sub _ _ hdis]
    exact cgSemW_congr ph base n k sub (fun l => by
      by_cases h1 : l = a <;> by_cases h2 : l ∈ A <;> simp [h1, h2])

theorem accepted_bounds {cv : ControlValues} {k : ℕ}
    (h : cv.validate (List.replicate k 2) = true) :
    ∀ a ∈ cv.accepted, ∀ x ∈ a, x < 2 := by
  have hnum := validate_numControls h
  intro a ha x hx
  have hlen : a.length = k := by
    rw [validate_uniform h a ha, hnum, List.length_replicate]
  rcases List.mem_iff_getElem.mp hx with ⟨i, hi, rfl⟩
  cases cv with
  | productOfSums pos =>
    rcases (mem_cartesian pos a).mp ha with ⟨hl, hmem⟩
    have hizip : i < (a.zip pos).length := by
      rw [List.length_zip]
      omega
    have hpair := hmem ((a.zip pos).get ⟨i, hizip⟩) (List.get_mem _ _ _)
    rw [List.get_eq_getElem, List.getElem_zip] at hpair
    unfold ControlValues.validate at h
    simp only [Bool.and_eq_true, decide_eq_true_eq, List.all_eq_true] at h
    have hplen : pos.length = k := by
      simpa [ControlValues.numControls] using hnum
    have hpz : i < (pos.zip (List.replicate k 2)).length := by
      rw [List.length_zip, List.length_replicate]
      omega
    have hppair := h.2 ((pos.zip (List.replicate k 2)).get ⟨i, hpz⟩)
      (List.get_mem _ _ _)
    rw [List.get_eq_getElem, List.getElem_zip] at hppair
    have hres := hppair _ hpair
    rwa [List.getElem_replicate] at hres
  | sumOfProducts sop =>
    unfold ControlValues.validate at h
    simp only [Bool.and_eq_true, decide_eq_true_eq, List.all_eq_true] at h
    have hmem := h.2 a ha
    have hz : i < (a.zip (List.replicate k 2)).length := by
      rw [List.length_zip, List.length_replicate]
      omega
    have hpair := hmem.2 ((a.zip (List.replicate k 2)).get ⟨i, hz⟩)
      (List.get_mem _ _ _)
    rw [List.get_eq_getElem, List.getElem_zip] at hpair
    rwa [List.getElem_replicate] at hpair

theorem decompose_sound {α : Type} [CommRing α] (ph : ℚ → α)
    (base : PKind → ℚ → Bool → Bool → α) (hph0 : ph 0 = 1)
    (hZ : ∀ t b b', base PKind.flipZ t b b' =
      if b = b' then (if b = true then ph t else 1) else 0)
    (g : CtrlGate) (ops : List DOp) (h : decompose g = some ops) :
    dcircuitSem ph base (g.cshape.length + g.sub.arity) ops =
      cgSem ph base (g.cshape.length + g.sub.arity) g := by
  obtain ⟨sub, cv, cshape⟩ := g
  simp only at h ⊢
  unfold decompose at h
  simp only at h
  by_cases h1 : cshape ≠ List.replicate cshape.length 2
  · rw [if_pos h1] at h
    exact Option.noConfusion h
  · rw [if_neg h1] at h
    push_neg at h1
    by_cases h2 : cshape.length = 0
    · rw [if_pos h2] at h
      exact Option.noConfusion h
    · rw [if_neg h2] at h
      by_cases h3 : cv.validate cshape = false
      · rw [if_pos h3] at h
        exact Option.noConfusion h
      · rw [if_neg h3] at h
        by_cases h4 : cv.accepted.dedup.isEmpty = true
        · rw [if_pos h4] at h
          exact Option.noConfusion h
        · rw [if_neg h4] at h
          cases hcore : coreFor sub cshape.length with
          | none =>
            rw [hcore] at h
            exact Option.noConfusion h
          | some core =>
            rw [hcore] at h
            simp only [Option.map_some', Option.some.injEq] at h
            subst h
            have hval : cv.validate cshape = true := by
              cases hvv : cv.validate cshape
              · exact absurd hvv h3
              · rfl
            have hval2 : cv.validate (List.replicate cshape.length 2) = true := by
              rwa [← h1]
            have hlens : ∀ a ∈ cv.accepted.dedup, a.length = cshape.length := by
              intro a ha
              rw [validate_uniform hval a (List.mem_dedup.mp ha)]
              exact validate_numControls hval
            have hbounds : ∀ a ∈ cv.accepted.dedup, ∀ x ∈ a, x < 2 := by
              intro a ha
              exact accepted_bounds hval2 a (List.mem_dedup.mp ha)
            rw [branches_sem ph base hph0 hZ (cshape.length + sub.arity)
              cshape.length sub core hcore (by omega) rfl cv.accepted.dedup
              (List.nodup_dedup _) hlens hbounds]
            unfold cgSem
            refine cgSemW_congr ph base _ _ _ (fun l => ?_)
            by_cases hl : cv.accepts l = true
            · have hmem : l ∈ cv.accepted.dedup :=
                List.mem_dedup.mpr ((accepts_iff_mem_accepted cv l).mp hl)
              simp [hmem, hl]
            · have hbf : cv.accepts l = false := by
                cases hv : cv.accepts l
                · rfl
                · exact absurd hv hl
              have hnm : l ∉ cv.accepted.dedup := fun hm =>
                hl ((accepts_iff_mem_accepted cv l).mpr (List.mem_dedup.mp hm))
              simp [hnm, hbf]

/-- The trivial phase model over the rationals, used by concrete witnesses. -/
def phOne : ℚ → ℚ := fun _ => 1

/-- The delta base model: every axis contributes the identity matrix entry,
matching phOne on the phase-flip axis. -/
def baseDelta : PKind → ℚ → Bool → Bool → ℚ :=
  fun _ _ b b' => if b = b' then 1 else 0

theorem baseDelta_hZ : ∀ t b b', baseDelta PKind.flipZ t b b' =
    if b = b' then (if b = true then phOne t else 1) else 0 := by
  intro t b b'
  cases b <;> cases b' <;> simp [baseDelta, phOne]

theorem decompose_single_default (sub : SubG) (core : List DOp)
    (hcore : coreFor sub 1 = some core) :
    decompose ⟨sub, .productOfSums [[1]], [2]⟩ = some core := by
  rw [show decompose ⟨sub, .productOfSums [[1]], [2]⟩ =
    (coreFor sub 1).map (fun c =>
      (([[1]] : List (List ℕ)).map
        fun a => flipsFor a ++ c ++ flipsFor a).flatten) from rfl, hcore]
  simp [flipsFor, zeroPositions]

/-- C2: for every decomposable controlled-gate instance — any control
count, any non-default or disjunctive control values, either sub-gate
family — composing the operations produced by the decomposition (in qid
order over the gate's qubits) reproduces the gate's dense unitary exactly,
including the global phase, in any phase model; exact equality implies
the claim's 1e-10 bound. -/
theorem decomposition_reproduces_unitary {α : Type} [CommRing α]
    (ph : ℚ → α) (base : PKind → ℚ → Bool → Bool → α) (hph0 : ph 0 = 1)
    (hZ : ∀ t b b', base PKind.flipZ t b b' =
      if b = b' then (if b = true then ph t else 1) else 0)
    (g : CtrlGate) (ops : List DOp) (h : decompose g = some ops) :
    dcircuitSem ph base (g.cshape.length + g.sub.arity) ops =
      cgSem ph base (g.cshape.length + g.sub.arity) g :=
  decompose_sound ph base hph0 hZ g ops h

/-- Witness for C2: a two-qubit-controlled global-phase gate with the
disjunctive SumOfProducts condition 00-or-11: the engine splits it into
two bit-flip-conjugated branches, and their composition equals the
block-diagonal lift. -/
theorem decomposition_reproduces_unitary_w :
    phOne 0 = 1 ∧
    (∀ t b b', baseDelta PKind.flipZ t b b' =
      if b = b' then (if b = true then phOne t else 1) else 0) ∧
    decompose ⟨.phase 1, .sumOfProducts [[0, 0], [1, 1]], [2, 2]⟩ =
      some [.flip 0, .flip 1, .elem ⟨.flipZ, 1, 1, 0, false⟩, .flip 0,
        .flip 1, .elem ⟨.flipZ, 1, 1, 0, false⟩] ∧
    dcircuitSem phOne baseDelta 2
        [.flip 0, .flip 1, .elem ⟨.flipZ, 1, 1, 0, false⟩, .flip 0,
          .flip 1, .elem ⟨.flipZ, 1, 1, 0, false⟩] =
      cgSem phOne baseDelta 2
        ⟨.phase 1, .sumOfProducts [[0, 0], [1, 1]], [2, 2]⟩ :=
  ⟨rfl, baseDelta_hZ, rfl,
    decomposition_reproduces_unitary phOne baseDelta rfl baseDelta_hZ
      ⟨.phase 1, .sumOfProducts [[0, 0], [1, 1]], [2, 2]⟩
      [.flip 0, .flip 1, .elem ⟨.flipZ, 1, 1, 0, false⟩, .flip 0,
        .flip 1, .elem ⟨.flipZ, 1, 1, 0, false⟩] rfl⟩

/-- C7: wrapping an elementary bit-flip or phase-flip power gate carrying
at most one built-in control with exactly one default-valued qubit control
makes a single decomposition step emit exactly the next canonical
controlled form (X to CX, CX to CCX, XPowGate to CXPowGate, Z to CZ, CZ to
CCZ, ZPowGate to CZPowGate, and the fractional-power forms alike), and
full decomposition terminates at that canonical gate. -/
theorem decompose_once_canonical_pairs (kind : PKind) (c : ℕ) (e : ℚ)
    (hc : c ≤ 1) :
    decompose ⟨.pow ⟨kind, c, e, 0, false⟩, .productOfSums [[1]], [2]⟩ =
      some [.elem ⟨kind, c + 1, e, 0, false⟩] ∧
    ∀ fuel : ℕ,
      fullDecompose (fuel + 1)
          (.ctrl ⟨.pow ⟨kind, c, e, 0, false⟩, .productOfSums [[1]], [2]⟩) =
        [.op (.elem ⟨kind, c + 1, e, 0, false⟩)] := by
  have hcore : coreFor (.pow ⟨kind, c, e, 0, false⟩) 1 =
      some [.elem ⟨kind, c + 1, e, 0, false⟩] := by
    simp only [coreFor]
    rw [if_pos (show c + 1 ≤ 2 by omega)]
    simp
  have h1 := decompose_single_default _ _ hcore
  refine ⟨h1, fun fuel => ?_⟩
  simp only [fullDecompose, decomposeOnceE, h1, Option.map_some']
  simp [fullDecompose_op]

/-- Witness for C7: a default-controlled CZ-to-the-one-half becomes the
canonical CCZ-to-the-one-half, and full decomposition stops there. -/
theorem decompose_once_canonical_pairs_w :
    (1 : ℕ) ≤ 1 ∧
    (decompose ⟨.pow ⟨.flipZ, 1, 1/2, 0, false⟩, .productOfSums [[1]], [2]⟩ =
      some [.elem ⟨.flipZ, 1 + 1, 1/2, 0, false⟩] ∧
    ∀ fuel : ℕ,
      fullDecompose (fuel + 1)
          (.ctrl ⟨.pow ⟨.flipZ, 1, 1/2, 0, false⟩,
            .productOfSums [[1]], [2]⟩) =
        [.op (.elem ⟨.flipZ, 1 + 1, 1/2, 0, false⟩)]) :=
  ⟨by omega, decompose_once_canonical_pairs .flipZ 1 (1/2) (by omega)⟩

/-- C8: decomposing a single-default-controlled power gate carrying a
nonzero global phase shift yields exactly the zero-shift decomposition
followed by one additional Z power gate of zero shift and exponent
shift*exponent on the first control qubit, and the rewritten sequence
reproduces the original unitary exactly in any phase model. -/
theorem global_phase_extraction (kind : PKind) (c : ℕ) (e s : ℚ)
    (hc : c ≤ 1) (hs : s ≠ 0) :
    decompose ⟨.pow ⟨kind, c, e, s, false⟩, .productOfSums [[1]], [2]⟩ =
      some ([.elem ⟨kind, c + 1, e, 0, false⟩] ++
        [.elem ⟨.flipZ, 0, s * e, 0, false⟩]) ∧
    decompose ⟨.pow ⟨kind, c, e, 0, false⟩, .productOfSums [[1]], [2]⟩ =
      some [.elem ⟨kind, c + 1, e, 0, false⟩] ∧
    ∀ {α : Type} [CommRing α] (ph : ℚ → α)
      (base : PKind → ℚ → Bool → Bool → α), ph 0 = 1 →
      (∀ t b b', base PKind.flipZ t b b' =
        if b = b' then (if b = true then ph t else 1) else 0) →
      dcircuitSem ph base (1 + (c + 1))
          ([.elem ⟨kind, c + 1, e, 0, false⟩] ++
            [.elem ⟨.flipZ, 0, s * e, 0, false⟩]) =
        cgSem ph base (1 + (c + 1))
          ⟨.pow ⟨kind, c, e, s, false⟩, .productOfSums [[1]], [2]⟩ := by
  have hcoreS : coreFor (.pow ⟨kind, c, e, s, false⟩) 1 =
      some [.elem ⟨kind, c + 1, e, 0, false⟩,
        .elem ⟨.flipZ, 0, s * e, 0, false⟩] := by
    simp only [coreFor]
    rw [if_pos (show c + 1 ≤ 2 by omega), if_neg hs]
    simp
  have hcore0 : coreFor (.pow ⟨kind, c, e, 0, false⟩) 1 =
      some [.elem ⟨kind, c + 1, e, 0, false⟩] := by
    simp only [coreFor]
    rw [if_pos (show c + 1 ≤ 2 by omega)]
    simp
  have h1 := decompose_single_default _ _ hcoreS
  refine ⟨h1, decompose_single_default _ _ hcore0, ?_⟩
  intro α _ ph base hph0 hZ
  exact decompose_sound ph base hph0 hZ
    ⟨.pow ⟨kind, c, e, s, false⟩, .productOfSums [[1]], [2]⟩ _ h1

/-- Witness for C8: a default-controlled X with shift 1 splits into the
canonical CX followed by a Z rotation of exponent 1*1 on the control
qubit, and reproduces the original unitary in the trivial phase model. -/
theorem global_phase_extraction_w :
    (0 : ℕ) ≤ 1 ∧ (1 : ℚ) ≠ 0 ∧
    (decompose ⟨.pow ⟨.flipX, 0, 1, 1, false⟩, .productOfSums [[1]], [2]⟩ =
      some ([.elem ⟨.flipX, 0 + 1, 1, 0, false⟩] ++
        [.elem ⟨.flipZ, 0, 1 * 1, 0, false⟩]) ∧
    decompose ⟨.pow ⟨.flipX, 0, 1, 0, false⟩, .productOfSums [[1]], [2]⟩ =
      some [.elem ⟨.flipX, 0 + 1, 1, 0, false⟩] ∧
    ∀ {α : Type} [CommRing α] (ph : ℚ → α)
      (base : PKind → ℚ → Bool → Bool → α), ph 0 = 1 →
      (∀ t b b', base PKind.flipZ t b b' =
        if b = b' then (if b = true then ph t else 1) else 0) →
      dcircuitSem ph base (1 + (0 + 1))
          ([.elem ⟨.flipX, 0 + 1, 1, 0, false⟩] ++
            [.elem ⟨.flipZ, 0, 1 * 1, 0, false⟩]) =
        cgSem ph base (1 + (0 + 1))
          ⟨.pow ⟨.flipX, 0, 1, 1, false⟩, .productOfSums [[1]], [2]⟩) :=
  ⟨by omega, by norm_num,
    global_phase_extraction .flipX 0 1 1 (by omega) (by norm_num)⟩

/-- Python's built-in round on a rational: nearest integer, ties to even. -/
def pyRound (q : ℚ) : ℤ :=
  if q - ⌊q⌋ < 1/2 then ⌊q⌋
  else if 1/2 < q - ⌊q⌋ then ⌊q⌋ + 1
  else if ⌊q⌋ % 2 = 0 then ⌊q⌋ else ⌊q⌋ + 1

/-- Python's float modulo on rationals (nonnegative result for a positive
modulus), as used by numpy's % inside near_zero_mod. -/
def qmod (a p : ℚ) : ℚ := a - p * ⌊a / p⌋

/-- cirq.linalg.tolerance.near_zero_mod: whether a is within atol of a
multiple of the period p. -/
def nearZeroMod (a p atol : ℚ) : Bool :=
  decide (|qmod (a + p / 2) p - p / 2| ≤ atol)

/-- A single-qubit rotation gate emitted by the IonQ synthesis: a GPI gate
with its phi angle stored in units of pi, or the z-axis rotation ops.Z that
the source's commented-out three-rotation variant would use. -/
inductive IonGate where
  | gpi : ℚ → IonGate
  | zgate : IonGate
deriving DecidableEq

/-- The mutable angle state of _single_qubit_matrix_to_pauli_rotations:
the z half-turns before, the middle half-turns, the z half-turns after,
and the middle gate. -/
structure RotState where
  zb : ℚ
  mht : ℚ
  za : ℚ
  mp : IonGate
deriving DecidableEq

/-- is_clifford_rotation of the source, with the tolerance explicit. -/
def isCliffordRotation (atol ht : ℚ) : Bool := nearZeroMod ht (1/2) atol

/-- to_quarter_turns of the source. -/
def toQuarterTurns (ht : ℚ) : ℤ := pyRound (2 * ht) % 4

/-- is_quarter_turn of the source. -/
def isQuarterTurn (atol ht : ℚ) : Bool :=
  isCliffordRotation atol ht && decide (toQuarterTurns ht % 2 = 1)

/-- is_half_turn of the source. -/
def isHalfTurn (atol ht : ℚ) : Bool :=
  isCliffordRotation atol ht && decide (toQuarterTurns ht = 2)

/-- is_no_turn of the source. -/
def isNoTurn (atol ht : ℚ) : Bool :=
  isCliffordRotation atol ht && decide (toQuarterTurns ht = 0)

/-- The "Clean up angles" block of
_single_qubit_matrix_to_pauli_rotations: guarded by the original z-before
being a Clifford rotation, first possibly shift a quarter turn between the
two z rotations (switching the middle gate to GPI(pi/2)), then possibly
move a half turn (negating the middle half-turns). -/
def cleanupState (atol : ℚ) (s0 : RotState) : RotState :=
  if isCliffordRotation atol s0.zb then
    let sA : RotState :=
      if Bool.xor (isQuarterTurn atol s0.zb || isQuarterTurn atol s0.za)
          (isHalfTurn atol s0.mht && isNoTurn atol (s0.zb - s0.za)) then
        ⟨s0.zb + 1/2, s0.mht, s0.za - 1/2, .gpi (1/2)⟩
      else s0
    if isHalfTurn atol sA.zb || isHalfTurn atol sA.za then
      ⟨sA.zb - 1, -sA.mht, sA.za + 1, sA.mp⟩
    else sA
  else s0

/-- The trailing merge of _single_qubit_matrix_to_pauli_rotations: a
no-turn middle absorbs z-after into z-before; a half-turn middle moves
z-before behind the middle rotation. -/
def mergeState (atol : ℚ) (s1 : RotState) : RotState :=
  if isNoTurn atol s1.mht then ⟨s1.zb + s1.za, s1.mht, 0, s1.mp⟩
  else if isHalfTurn atol s1.mht then ⟨0, s1.mht, s1.za - s1.zb, s1.mp⟩
  else s1

/-- _single_qubit_matrix_to_pauli_rotations of
cirq_ionq/ionq_native_target_gateset.py, embedded over the rationals.  The
three Euler angles produced by the external deconstruction
(cirq.linalg.deconstruct_single_qubit_matrix_into_angles, an out-of-scope
collaborator) are taken as inputs already divided by pi, matching the
source's immediate division by pi; GPI phi angles are stored in units of
pi as well.  The returned rotation list is the source's active
`rotation_list = [(m_pauli, m_ht)]` filtered of no-turns; the z rotations
(z_ht_before, z_ht_after) appear only in the commented-out variant. -/
def singleQubitMatrixToPauliRotations (zbOverPi yOverPi zaOverPi atol : ℚ) :
    List (IonGate × ℚ) :=
  let s2 := mergeState atol
    (cleanupState atol ⟨zbOverPi - 1/2, yOverPi, zaOverPi + 1/2, .gpi 0⟩)
  [(s2.mp, s2.mht)].filter fun pr => !(isNoTurn atol pr.2)

/-- A gate raised to a half-turn exponent, the element type produced by
_single_qubit_matrix_to_gates. -/
structure IonPowGate where
  gate : IonGate
  exponent : ℚ
deriving DecidableEq

/-- _single_qubit_matrix_to_gates of the source: raises each rotation's
gate to its half-turn exponent. -/
def singleQubitMatrixToGates (zbOverPi yOverPi zaOverPi atol : ℚ) :
    List IonPowGate :=
  (singleQubitMatrixToPauliRotations zbOverPi yOverPi zaOverPi atol).map
    fun pr => ⟨pr.1, pr.2⟩

theorem mergeState_mp (atol : ℚ) (s : RotState) :
    (mergeState atol s).mp = s.mp := by
  unfold mergeState
  split_ifs <;> rfl

theorem cleanupState_mp (atol : ℚ) (s : RotState) :
    (cleanupState atol s).mp = s.mp ∨ (cleanupState atol s).mp = .gpi (1/2) := by
  unfold cleanupState
  split_ifs <;> simp [apply_ite RotState.mp]

/-- C10: for every input, the IonQ single-qubit synthesis returns at most
one rotation, the returned rotation (when present) is a GPI gate with phi
either 0 or pi/2, no z rotation is ever emitted, and the produced gate list
has at most one element. -/
theorem ionq_rotations_at_most_one_gpi (zb y za atol : ℚ) :
    (singleQubitMatrixToPauliRotations zb y za atol).length ≤ 1 ∧
    (∀ pr ∈ singleQubitMatrixToPauliRotations zb y za atol,
      pr.1 = IonGate.gpi 0 ∨ pr.1 = IonGate.gpi (1/2)) ∧
    (∀ pr ∈ singleQubitMatrixToPauliRotations zb y za atol,
      pr.1 ≠ IonGate.zgate) ∧
    (singleQubitMatrixToGates zb y za atol).length ≤ 1 := by
  have hmem : ∀ pr ∈ singleQubitMatrixToPauliRotations zb y za atol,
      pr.1 = IonGate.gpi 0 ∨ pr.1 = IonGate.gpi (1/2) := by
    intro pr hpr
    unfold singleQubitMatrixToPauliRotations at hpr
    rw [List.mem_filter] at hpr
    rw [List.mem_singleton] at hpr
    rcases hpr with ⟨hpr1, -⟩
    subst hpr1
    rw [mergeState_mp]
    rcases cleanupState_mp atol ⟨zb - 1/2, y, za + 1/2, .gpi 0⟩ with h | h
    · rw [h]; left; rfl
    · rw [h]; right; rfl
  have hlen : (singleQubitMatrixToPauliRotations zb y za atol).length ≤ 1 := by
    unfold singleQubitMatrixToPauliRotations
    exact List.length_filter_le _ _
  refine ⟨hlen, hmem, ?_, ?_⟩
  · intro pr hpr
    rcases hmem pr hpr with h | h <;> simp [h]
  · unfold singleQubitMatrixToGates
    rw [List.length_map]
    exact hlen

/-- Witness for C10, also exhibiting the information loss the claim points
out: the angle triple of a pure z rotation by pi (a non-identity unitary)
produces an empty decomposition, besides satisfying the bounds. -/
theorem ionq_rotations_at_most_one_gpi_w :
    (singleQubitMatrixToPauliRotations 1 0 0 (1/100000000)).length ≤ 1 ∧
    (singleQubitMatrixToGates 1 0 0 (1/100000000)).length ≤ 1 ∧
    singleQubitMatrixToPauliRotations 1 0 0 (1/100000000) = [] := by
  refine ⟨(ionq_rotations_at_most_one_gpi 1 0 0 (1/100000000)).1,
    (ionq_rotations_at_most_one_gpi 1 0 0 (1/100000000)).2.2.2, ?_⟩
  norm_num [singleQubitMatrixToPauliRotations, cleanupState, mergeState,
    isCliffordRotation, isQuarterTurn, isHalfTurn, isNoTurn, toQuarterTurns,
    nearZeroMod, qmod, pyRound]

end CirqModel
